import Mathlib

/-!
Verification of the typekon VSCode extension (src/extension.ts, src/identicon.ts).

The TypeScript sources are shallowly embedded: JS strings are `List Char`
(UTF-16 code units are recovered explicitly where `charCodeAt` matters),
JS 32-bit integer operations are `Nat`/`Int` with explicit `% 2^32`
wrap-around, and the ECMAScript regular expressions used by
`extractTypeFromHoverText` are embedded via an executable backtracking
matcher over a small regex AST, one AST term per source pattern.
Asynchronous collection passes are modelled as sequential pure functions of
the document snapshot, the symbol tree and the hover/highlight oracles.
-/

namespace Typekon

/-! ## ECMAScript character predicates -/

/-- JS regex `\w`: `[A-Za-z0-9_]`. -/
def isWordCh (c : Char) : Bool :=
  (('a' ≤ c && c ≤ 'z') || ('A' ≤ c && c ≤ 'Z') || ('0' ≤ c && c ≤ '9') || c == '_')

/-- ECMAScript WhiteSpace ∪ LineTerminator, the set matched by `\s`
and removed by `String.prototype.trim`. -/
def isSpaceCh (c : Char) : Bool :=
  c.toNat == 9 || c.toNat == 10 || c.toNat == 11 || c.toNat == 12 || c.toNat == 13 ||
  c.toNat == 32 || c.toNat == 0xa0 || c.toNat == 0x1680 ||
  (0x2000 ≤ c.toNat && c.toNat ≤ 0x200a) ||
  c.toNat == 0x2028 || c.toNat == 0x2029 || c.toNat == 0x202f ||
  c.toNat == 0x205f || c.toNat == 0x3000 || c.toNat == 0xfeff

/-- ECMAScript LineTerminator (the characters `.` does not match,
and the boundaries `^`/`$` honour under the `m` flag). -/
def isLineTermCh (c : Char) : Bool :=
  c.toNat == 10 || c.toNat == 13 || c.toNat == 0x2028 || c.toNat == 0x2029

/-! ## Regex AST

One constructor per ECMAScript construct appearing in the source patterns.
Non-capturing groups `(?:…)` need no constructor.  `plus`/`opt` are derived. -/

inductive CItem where
  | one (c : Char)
  | rng (lo hi : Char)
  | word
  | space
  | nspace
deriving DecidableEq

def CItem.hits : CItem → Char → Bool
  | .one c, ch => ch == c
  | .rng lo hi, ch => lo ≤ ch && ch ≤ hi
  | .word, ch => isWordCh ch
  | .space, ch => isSpaceCh ch
  | .nspace, ch => !isSpaceCh ch

/-- `true` iff character `ch` is matched by the class `[items]`
(or `[^items]` when `neg`). -/
def clsHits (neg : Bool) (items : List CItem) (ch : Char) : Bool :=
  if neg then !(items.any (fun it => it.hits ch)) else items.any (fun it => it.hits ch)

inductive Re where
  | eps
  | lit (c : Char)
  | cls (neg : Bool) (items : List CItem)
  | dot
  | bol
  | eol
  | wordb
  | cat (r s : Re)
  | alt (r s : Re)
  | star (lzy : Bool) (r : Re)
  | grp (i : Nat) (r : Re)
deriving DecidableEq

/-- Sequence a list of regexes (plain juxtaposition in a pattern). -/
def reSeq : List Re → Re
  | [] => .eps
  | [r] => r
  | r :: rs => .cat r (reSeq rs)

/-- A literal string inside a pattern. -/
def reStr (s : String) : Re := reSeq (s.data.map Re.lit)

/-- `r+` (greedy). -/
def rePlus (r : Re) : Re := .cat r (.star false r)

/-- `r+?` (lazy). -/
def rePlusL (r : Re) : Re := .cat r (.star true r)

/-- `r?` (greedy). -/
def reOpt (r : Re) : Re := .alt r .eps

/-! ## Matcher

`mall` enumerates, in ECMAScript backtracking priority order, every
`(end-position, captures)` state the regex can reach from a start position;
the engine's first full match is the head of this list, which is exactly the
match the ECMAScript backtracking algorithm commits to.  Captures are an
association list (latest write first).  Following ES `RepeatMatcher`, a
quantifier iteration whose body consumed no characters is pruned, so `star`
recursion is fuelled by the remaining input length. -/

abbrev Caps := List (Nat × Nat × Nat)

def capLookup (caps : Caps) (i : Nat) : Option (Nat × Nat) :=
  match caps with
  | [] => none
  | (j, a, b) :: rest => if j == i then some (a, b) else capLookup rest i

/-- The quantifier loop of ES `RepeatMatcher`, abstracted over the matcher
of the quantifier's body.  Each further iteration must consume at least one
character (the `filter`), so fuel `s.length + 1` never runs out. -/
def starLoop (body : Nat → Caps → List (Nat × Caps)) (lzy : Bool) :
    Nat → Nat → Caps → List (Nat × Caps)
  | 0, pos, caps => [(pos, caps)]
  | fuel + 1, pos, caps =>
    let more := ((body pos caps).filter (fun pc => pos < pc.1)).flatMap
      (fun pc => starLoop body lzy fuel pc.1 pc.2)
    if lzy then (pos, caps) :: more else more ++ [(pos, caps)]

def mall (s : List Char) (mult : Bool) : Re → Nat → Caps → List (Nat × Caps)
  | .eps, pos, caps => [(pos, caps)]
  | .lit c, pos, caps =>
    match s.get? pos with
    | some ch => if ch == c then [(pos + 1, caps)] else []
    | none => []
  | .cls neg items, pos, caps =>
    match s.get? pos with
    | some ch => if clsHits neg items ch then [(pos + 1, caps)] else []
    | none => []
  | .dot, pos, caps =>
    match s.get? pos with
    | some ch => if isLineTermCh ch then [] else [(pos + 1, caps)]
    | none => []
  | .bol, pos, caps =>
    if pos == 0 then [(pos, caps)]
    else if mult then
      match s.get? (pos - 1) with
      | some ch => if isLineTermCh ch then [(pos, caps)] else []
      | none => []
    else []
  | .eol, pos, caps =>
    if pos == s.length then [(pos, caps)]
    else if mult then
      match s.get? pos with
      | some ch => if isLineTermCh ch then [(pos, caps)] else []
      | none => []
    else []
  | .wordb, pos, caps =>
    let before := match s.get? (pos - 1) with
      | some ch => pos ≠ 0 && isWordCh ch
      | none => false
    let after := match s.get? pos with
      | some ch => isWordCh ch
      | none => false
    if before != after then [(pos, caps)] else []
  | .cat r t, pos, caps =>
    (mall s mult r pos caps).flatMap (fun pc => mall s mult t pc.1 pc.2)
  | .alt r t, pos, caps =>
    mall s mult r pos caps ++ mall s mult t pos caps
  | .star lzy r, pos, caps =>
    starLoop (fun p c => mall s mult r p c) lzy (s.length + 1) pos caps
  | .grp i r, pos, caps =>
    (mall s mult r pos caps).map (fun pc => (pc.1, (i, pos, pc.1) :: pc.2))

structure MatchRes where
  first : Nat
  stop : Nat
  caps : Caps
deriving DecidableEq

/-- Leftmost match: try each start position in order, commit to the first
position where the pattern matches, and there to the highest-priority
backtracking branch — ECMAScript `RegExp.prototype.exec` without `g`. -/
def findFrom (s : List Char) (mult : Bool) (re : Re) : Nat → Nat → Option MatchRes
  | _, 0 => none
  | start, tries + 1 =>
    match (mall s mult re start []).head? with
    | some pc => some ⟨start, pc.1, pc.2⟩
    | none => findFrom s mult re (start + 1) tries

/-- A source pattern: AST plus its `m` flag. -/
structure Rx where
  re : Re
  mult : Bool

/-- `string.match(rx)` (no `g` flag): the first match, if any. -/
def jsMatch (rx : Rx) (s : List Char) : Option MatchRes :=
  findFrom s rx.mult rx.re 0 (s.length + 1)

def listSlice (s : List Char) (a b : Nat) : List Char := (s.drop a).take (b - a)

/-- `match[i]` for a capture group: `none` is JS `undefined`. -/
def MatchRes.capStr (m : MatchRes) (s : List Char) (i : Nat) : Option (List Char) :=
  (capLookup m.caps i).map (fun ab => listSlice s ab.1 ab.2)

/-- `match[0]`. -/
def MatchRes.whole (m : MatchRes) (s : List Char) : List Char := listSlice s m.first m.stop

/-- `string.replace(rx, '')` (no `g` flag): delete the first match. -/
def replaceFirst (rx : Rx) (s : List Char) : List Char :=
  match jsMatch rx s with
  | some m => s.take m.first ++ s.drop m.stop
  | none => s

/-- The matches produced by a `while ((m = rx.exec(text)) !== null)` loop over
a `g`-flagged pattern: each search resumes at the previous match's end
(`lastIndex`).  All source patterns used this way match at least one
character, so the loop advances; the fuel covers exactly those runs. -/
def execAllFrom (s : List Char) (mult : Bool) (re : Re) : Nat → Nat → List MatchRes
  | _, 0 => []
  | last, fuel + 1 =>
    if last ≤ s.length then
      match findFrom s mult re last (s.length + 1 - last) with
      | some m => m :: execAllFrom s mult re (max m.stop (m.first + 1)) fuel
      | none => []
    else []

def execAll (rx : Rx) (s : List Char) : List MatchRes :=
  execAllFrom s rx.mult rx.re 0 (s.length + 1)

/-! ## JS string primitives -/

/-- `String.prototype.trim`: strip WhiteSpace/LineTerminators at both ends. -/
def jsTrim (s : List Char) : List Char :=
  ((s.dropWhile isSpaceCh).reverse.dropWhile isSpaceCh).reverse

/-- `String.prototype.toLowerCase`, restricted to the ASCII mapping.  The
full Unicode mapping differs only on non-ASCII characters, none of which can
lower-case onto the all-ASCII keyword strings this is compared against
(`KELVIN SIGN` maps to `k`, which no keyword contains; `İ` maps to two
characters), so the comparison below is unchanged. -/
def toLowerAscii (s : List Char) : List Char := s.map Char.toLower

/-- Index of the first occurrence of `sep` in `s` (JS `indexOf` for the
splitting scan). -/
def idxOfSeq (sep : List Char) : List Char → Option Nat
  | [] => if sep.isEmpty then some 0 else none
  | c :: rest =>
    if sep.isPrefixOf (c :: rest) then some 0 else (idxOfSeq sep rest).map (· + 1)

def splitSeqF (sep : List Char) : Nat → List Char → List (List Char)
  | 0, s => [s]
  | fuel + 1, s =>
    match idxOfSeq sep s with
    | none => [s]
    | some i => s.take i :: splitSeqF sep fuel (s.drop (i + sep.length))

/-- `String.prototype.split(sep)` for a non-empty literal separator:
leftmost non-overlapping occurrences. -/
def splitSeq (sep s : List Char) : List (List Char) := splitSeqF sep (s.length + 1) s

/-! ## The hover-text patterns of `extractTypeFromHoverText`

One AST term per regex literal of `src/extension.ts`.  Both copies of the
function use the identical pattern step; they differ only in normalization. -/

def aW : Re := .cls false [.word]
def aS : Re := .cls false [.space]
def wsS : Re := .star false aS
def wsP : Re := rePlus aS
def wP : Re := rePlus aW
def idStart : Re := .cls false [.rng 'a' 'z', .rng 'A' 'Z', .one '_']
def btick : Char := Char.ofNat 96

/-- ``/```\w*\n?([\s\S]*?)```/`` — isolate a fenced code block. -/
def codeBlockRx : Rx :=
  ⟨reSeq [.lit btick, .lit btick, .lit btick, .star false aW, reOpt (.lit '\n'),
    .grp 1 (.star true (.cls false [.space, .nspace])), .lit btick, .lit btick, .lit btick],
   false⟩

/-- `/\([^)]+\)\s+[\w.]+\s*:\s*([^\s=;,\n]+)/` -/
def tsRx1 : Rx :=
  ⟨reSeq [.lit '(', rePlus (.cls true [.one ')']), .lit ')', wsP,
    rePlus (.cls false [.word, .one '.']), wsS, .lit ':', wsS,
    .grp 1 (rePlus (.cls true [.space, .one '=', .one ';', .one ',', .one '\n']))], false⟩

/-- `/(?:let|const|var)\s+\w+\s*:\s*([^\s=;,\n]+)/` -/
def tsRx2 : Rx :=
  ⟨reSeq [.alt (reStr "let") (.alt (reStr "const") (reStr "var")), wsP, wP, wsS,
    .lit ':', wsS,
    .grp 1 (rePlus (.cls true [.space, .one '=', .one ';', .one ',', .one '\n']))], false⟩

/-- `/:\s*([A-Z][a-zA-Z0-9_<>[\]|&]*)/` -/
def tsRx3 : Rx :=
  ⟨reSeq [.lit ':', wsS,
    .grp 1 (.cat (.cls false [.rng 'A' 'Z'])
      (.star false (.cls false [.rng 'a' 'z', .rng 'A' 'Z', .rng '0' '9', .one '_',
        .one '<', .one '>', .one '[', .one ']', .one '|', .one '&'])))], false⟩

/-- `/^(.+?)\s+\w+(?:\s*-.*)?$/m` -/
def javaRx : Rx :=
  ⟨reSeq [.bol, .grp 1 (rePlusL .dot), wsP, wP,
    reOpt (reSeq [wsS, .lit '-', .star false .dot]), .eol], true⟩

/-- `/\([^)]+\)\s+\w+\s*:\s*([^\s=,\n|]+)/` -/
def pyRx1 : Rx :=
  ⟨reSeq [.lit '(', rePlus (.cls true [.one ')']), .lit ')', wsP, wP, wsS, .lit ':', wsS,
    .grp 1 (rePlus (.cls true [.space, .one '=', .one ',', .one '\n', .one '|']))], false⟩

/-- `/:\s*([a-zA-Z_][\w[\]]*)/` -/
def pyRx2 : Rx :=
  ⟨reSeq [.lit ':', wsS,
    .grp 1 (.cat idStart (.star false (.cls false [.word, .one '[', .one ']'])))], false⟩

/-- The class `[\w.<>[\]?]`, shared by the C# and Kotlin patterns. -/
def csCls : Re :=
  .cls false [.word, .one '.', .one '<', .one '>', .one '[', .one ']', .one '?']

/-- `/\([^)]+\)\s+([a-zA-Z_][\w.<>[\]?]*)\s+\w+/` -/
def csRx1 : Rx :=
  ⟨reSeq [.lit '(', rePlus (.cls true [.one ')']), .lit ')', wsP,
    .grp 1 (.cat idStart (.star false csCls)), wsP, wP], false⟩

/-- `/^([a-zA-Z_][\w.<>[\]?]*)\s+\w+/m` -/
def csRx2 : Rx :=
  ⟨reSeq [.bol, .grp 1 (.cat idStart (.star false csCls)), wsP, wP], true⟩

/-- `/(?:var|field)\s+\w+\s+(.+?)(?:\s*\/\/|$)/m` -/
def goRx : Rx :=
  ⟨reSeq [.alt (reStr "var") (reStr "field"), wsP, wP, wsP, .grp 1 (rePlusL .dot),
    .alt (reSeq [wsS, .lit '/', .lit '/']) .eol], true⟩

/-- The class `[\w:&<>[\]]` of the Rust patterns. -/
def rsCls : Re :=
  .cls false [.word, .one ':', .one '&', .one '<', .one '>', .one '[', .one ']']

/-- `/(?:let\s+(?:mut\s+)?|field\s+)\w+\s*:\s*([a-zA-Z_][\w:&<>[\]]*)/` -/
def rsRx1 : Rx :=
  ⟨reSeq [.alt (reSeq [reStr "let", wsP, reOpt (reSeq [reStr "mut", wsP])])
      (reSeq [reStr "field", wsP]),
    wP, wsS, .lit ':', wsS, .grp 1 (.cat idStart (.star false rsCls))], false⟩

/-- `/:\s*([a-zA-Z_][\w:&<>[\]]*)/` -/
def rsRx2 : Rx :=
  ⟨reSeq [.lit ':', wsS, .grp 1 (.cat idStart (.star false rsCls))], false⟩

/-- `/(?:val|var)\s+\w+\s*:\s*([a-zA-Z_][\w.<>[\]?]*)/` -/
def ktRx1 : Rx :=
  ⟨reSeq [.alt (reStr "val") (reStr "var"), wsP, wP, wsS, .lit ':', wsS,
    .grp 1 (.cat idStart (.star false csCls))], false⟩

/-- `/:\s*([a-zA-Z_][\w.<>[\]?]*)/` -/
def ktRx2 : Rx :=
  ⟨reSeq [.lit ':', wsS, .grp 1 (.cat idStart (.star false csCls))], false⟩

/-- `/^([a-zA-Z_][\w:<>*&\s]*?)\s+\w+\s*\(/m` -/
def cppRx1 : Rx :=
  ⟨reSeq [.bol,
    .grp 1 (.cat idStart (.star true (.cls false [.word, .one ':', .one '<', .one '>',
      .one '*', .one '&', .space]))),
    wsP, wP, wsS, .lit '('], true⟩

/-- `/^([a-zA-Z_][\w:<>*&]*(?:\s*[*&])?)\s+[*&]?\w+/m` -/
def cppRx2 : Rx :=
  ⟨reSeq [.bol,
    .grp 1 (reSeq [idStart,
      .star false (.cls false [.word, .one ':', .one '<', .one '>', .one '*', .one '&']),
      reOpt (reSeq [wsS, .cls false [.one '*', .one '&']])]),
    wsP, reOpt (.cls false [.one '*', .one '&']), wP], true⟩

/-- `/:\s*([a-zA-Z_][\w.<>[\]*?]*)/` -/
def defRx1 : Rx :=
  ⟨reSeq [.lit ':', wsS,
    .grp 1 (.cat idStart (.star false (.cls false [.word, .one '.', .one '<', .one '>',
      .one '[', .one ']', .one '*', .one '?'])))], false⟩

/-- `/^([a-zA-Z_][\w.<>[\]]*)\s+\w+/m` -/
def defRx2 : Rx :=
  ⟨reSeq [.bol,
    .grp 1 (.cat idStart (.star false (.cls false [.word, .one '.', .one '<', .one '>',
      .one '[', .one ']']))),
    wsP, wP], true⟩

/-- The ordered pattern list of the `switch (languageId)` dispatch.  The
C/C++ arm tries the return-type pattern only when the code text contains
both `'('` and `')'`; `if (!match)` then falls through to the next pattern
exactly as trying the patterns in order does. -/
def hoverPats (languageId : String) (codeText : List Char) : List Rx :=
  if languageId == "typescript" || languageId == "javascript" ||
      languageId == "typescriptreact" || languageId == "javascriptreact" then
    [tsRx1, tsRx2, tsRx3]
  else if languageId == "java" then [javaRx]
  else if languageId == "python" then [pyRx1, pyRx2]
  else if languageId == "csharp" then [csRx1, csRx2]
  else if languageId == "go" then [goRx]
  else if languageId == "rust" then [rsRx1, rsRx2]
  else if languageId == "kotlin" then [ktRx1, ktRx2]
  else if languageId == "cpp" || languageId == "c" then
    (if codeText.contains '(' && codeText.contains ')' then [cppRx1, cppRx2] else [cppRx2])
  else [defRx1, defRx2]

def tryRxs (codeText : List Char) : List Rx → Option MatchRes
  | [] => none
  | rx :: rest =>
    match jsMatch rx codeText with
    | some m => some m
    | none => tryRxs codeText rest

/-- Step 1 of both copies: `codeBlockMatch ? codeBlockMatch[1].trim() : text`. -/
def hoverCodeText (text : List Char) : List Char :=
  match jsMatch codeBlockRx text with
  | some m => jsTrim ((m.capStr text 1).getD [])
  | none => text

/-- Steps 1–2 plus the `if (match && match[1])` gate, shared verbatim by the
two copies of `extractTypeFromHoverText`: the capture that reaches the
normalization stage, if any. -/
def hoverCandidate (text : List Char) (languageId : String) : Option (List Char) :=
  let codeText := hoverCodeText text
  match tryRxs codeText (hoverPats languageId codeText) with
  | some m =>
    match m.capStr codeText 1 with
    | some cap => if cap.isEmpty then none else some cap
    | none => none
  | none => none

/-! ## Normalization (step 3) of the two copies -/

/-- `/<.*/` — drop generic arguments. -/
def genRx : Rx := ⟨.cat (.lit '<') (.star false .dot), false⟩

/-- `/\[.*/` — the first copy's array-bracket strip (line 495). -/
def brRxEarly : Rx := ⟨.cat (.lit '[') (.star false .dot), false⟩

/-- `/\[.*$/` — the second copy's array-bracket strip (line 1463). -/
def brRx : Rx := ⟨reSeq [.lit '[', .star false .dot, .eol], false⟩

/-- `/[*&]+$/` — trailing pointer/reference markers. -/
def ptrRx : Rx := ⟨.cat (rePlus (.cls false [.one '*', .one '&'])) .eol, false⟩

/-- The keyword denylist, shared by both copies. -/
def kwList : List (List Char) :=
  ["let", "var", "val", "const", "mut", "field", "property", "parameter", "void",
   "async", "static", "public", "private", "protected"].map String.data

/-- The pipeline tail after the generic and bracket strips: pointer strip,
trim, namespace split keeping the last segment, keyword denylist,
`return typeName || null`. -/
def normalizeFinish (t : List Char) : Option (List Char) :=
  let t := jsTrim (replaceFirst ptrRx t)
  let parts := splitSeq "::".data t
  let t := parts.getLastD []
  if kwList.contains (toLowerAscii t) then none
  else if t.isEmpty then none else some t

/-- Shared tail of both normalizations: generic strip, array-bracket strip
(the bracket pattern is the one spot where the copies differ), then
`normalizeFinish`. -/
def normalizeTail (bracketRx : Rx) (t : List Char) : Option (List Char) :=
  normalizeFinish (replaceFirst bracketRx (replaceFirst genRx t))

/-- Normalization of the first copy (lines 489–507): no Go-marker handling. -/
def normalizeEarly (cap : List Char) : Option (List Char) :=
  normalizeTail brRxEarly (jsTrim cap)

/-- Normalization of the second copy (lines 1443–1475): strip a leading
`[]`, collapse a leading `map[` to `map`, strip a leading `*`, then the
shared tail. -/
def normalize (cap : List Char) : Option (List Char) :=
  let t := jsTrim cap
  let t := if ("[]".data).isPrefixOf t then t.drop 2 else t
  let t := if ("map[".data).isPrefixOf t then "map".data else t
  let t := if ("*".data).isPrefixOf t then t.drop 1 else t
  normalizeTail brRx t

/-- The first (shadowed) copy of `extractTypeFromHoverText`
(src/extension.ts lines 400–510). -/
def extractTypeFromHoverTextEarly (text languageId : String) : Option String :=
  ((hoverCandidate text.data languageId).bind normalizeEarly).map List.asString

/-- The second copy of `extractTypeFromHoverText` (src/extension.ts lines
1353–1478).  Function declarations are hoisted in order, so this copy is the
one every caller actually invokes. -/
def extractTypeFromHoverText (text languageId : String) : Option String :=
  ((hoverCandidate text.data languageId).bind normalize).map List.asString

/-! ## JS number printing and 32-bit primitives -/

def digitCh (d : Nat) : Char := Char.ofNat (48 + d)

def natStrAux : Nat → Nat → List Char
  | 0, _ => []
  | fuel + 1, n =>
    if n < 10 then [digitCh n] else natStrAux fuel (n / 10) ++ [digitCh (n % 10)]

/-- Decimal digits of `n`, as JS prints an integral number. -/
def natStr (n : Nat) : List Char := natStrAux (n + 1) n

def natS (n : Nat) : String := ⟨natStr n⟩

/-- `array.join(':')`. -/
def joinColon : List String → String
  | [] => ""
  | [n] => n
  | n :: rest => n ++ ":" ++ joinColon rest

/-- JS printing of an integral value that may be negative. -/
def intS (i : Int) : String := if i < 0 then "-" ++ natS i.natAbs else natS i.natAbs

def pow32 : Nat := 2 ^ 32

/-- Reading of a 32-bit pattern as ECMAScript `ToInt32` does. -/
def toInt32 (n : Nat) : Int :=
  if n % pow32 < 2 ^ 31 then ((n % pow32 : Nat) : Int) else ((n % pow32 : Nat) : Int) - pow32

/-- ECMAScript `>>`: arithmetic right shift of the `ToInt32` reading (shift
counts are masked to 5 bits).  Arithmetic shift is floor division. -/
def jsShr (n : Nat) (k : Nat) : Int := Int.fdiv (toInt32 n) (2 ^ (k % 32))

/-- ECMAScript `%` for a positive divisor: remainder with the dividend's
sign (Lean's `Int.emod` is instead always non-negative). -/
def jsRem (a b : Int) : Int := if 0 ≤ a then a % b else -((-a) % b)

/-! ## identicon.ts -/

/-- UTF-16 code units of a scalar value (`charCodeAt` walks these). -/
def utf16Units (c : Char) : List Nat :=
  if c.toNat < 0x10000 then [c.toNat]
  else [0xd800 + (c.toNat - 0x10000) / 0x400, 0xdc00 + (c.toNat - 0x10000) % 0x400]

def jsCharCodes (s : String) : List Nat := s.data.flatMap utf16Units

/-- One loop iteration `hash = ((hash << 5) + hash) ^ str.charCodeAt(i)`,
on 32-bit patterns: `<<` wraps to 32 bits, `^` re-truncates the exact sum;
signed and unsigned readings agree modulo `2^32`, and `^` acts on the
patterns bitwise. -/
def hashStep (h c : Nat) : Nat := Nat.xor ((h * 32 % pow32 + h) % pow32) c

/-- `hashString` (identicon.ts lines 7–13); the final `>>> 0` makes the
returned value exactly this unsigned pattern. -/
def hashString (str : String) : Nat := (jsCharCodes str).foldl hashStep 5381

/-- `h`, `s`, `l` as computed by `hashToColor` (identicon.ts lines 16–21). -/
def hueOf (hash : Nat) (offset : Nat) : Int := jsRem (jsRem (jsShr hash offset) 360 + 360) 360

def satOf (hash : Nat) : Int := 60 + jsRem (hash : Int) 30

def lightOf (hash : Nat) : Int := 45 + jsRem (jsShr hash 4) 20

def hashToColor (hash : Nat) (offset : Nat := 0) : String :=
  "hsl(" ++ intS (hueOf hash offset) ++ ", " ++ intS (satOf hash) ++ "%, " ++
    intS (lightOf hash) ++ "%)"

def getTypeColor (typeName : String) : String := hashToColor (hashString typeName)

/-- `generatePattern`: rows `[b0, b1, b2, b1, b0]` with `b_x` = bit `y*3+x`
of the 32-bit pattern of `hash` (`(hash >> bitIndex) & 1`). -/
def generatePattern (hash : Nat) : List (List Bool) :=
  (List.range 5).map (fun y =>
    let b0 := Nat.testBit (hash % pow32) (y * 3)
    let b1 := Nat.testBit (hash % pow32) (y * 3 + 1)
    let b2 := Nat.testBit (hash % pow32) (y * 3 + 2)
    [b0, b1, b2, b1, b0])

/-- Coordinates in the generated SVG are multiples of `cellSize = size/5`;
`q5S k` prints the value `k/5` the way JS string interpolation prints it
(at most one fractional digit, e.g. `14/5` as `"2.8"`).  JS computes these
in binary floating point; the exact rational value is printed here. -/
def q5S (k : Nat) : String :=
  if k % 5 == 0 then natS (k / 5) else natS (k / 5) ++ "." ++ natS (2 * (k % 5))

/-- The pattern-cell loop shared by `generateIdenticon` and
`generateCombinedIdenticon`: one `<rect/>` per on cell.  `off5` is five
times the icon's horizontal offset, so `q5S (off5 + x * size)` is
`offsetX + x * cellSize` (with `off5 = 0` for the single-icon renderer,
whose interpolation prints the same string). -/
def cellsSvg (pat : List (List Bool)) (color : String) (size : Nat) (off5 : Nat) : String :=
  ((List.range 5).map (fun y =>
    ((List.range 5).map (fun x =>
      if (pat.getD y []).getD x false then
        "<rect x=\"" ++ q5S (off5 + x * size) ++ "\" y=\"" ++ q5S (y * size) ++
          "\" width=\"" ++ q5S size ++ "\" height=\"" ++ q5S size ++ "\" fill=\"" ++
          color ++ "\"/>"
      else "")).foldl (· ++ ·) "")).foldl (· ++ ·) ""

/-- `generateIdenticon` (identicon.ts lines 49–69). -/
def generateIdenticon (typeName : String) (size : Nat := 14) : String :=
  let hash := hashString typeName
  let pat := generatePattern hash
  let color := hashToColor hash
  let bgColor := hashToColor hash 16
  "<svg xmlns=\"http://www.w3.org/2000/svg\" width=\"" ++ natS size ++ "\" height=\"" ++
      natS size ++ "\" viewBox=\"0 0 " ++ natS size ++ " " ++ natS size ++ "\">" ++
    "<rect width=\"" ++ natS size ++ "\" height=\"" ++ natS size ++ "\" fill=\"" ++
      bgColor ++ "\" opacity=\"0.3\"/>" ++
    cellsSvg pat color size 0 ++ "</svg>"

def hexDigitCh (d : Nat) : Char := if d < 10 then digitCh d else Char.ofNat (65 + (d - 10))

/-- UTF-8 bytes of a scalar value (what `encodeURIComponent` escapes). -/
def utf8Bytes (c : Char) : List Nat :=
  let n := c.toNat
  if n < 0x80 then [n]
  else if n < 0x800 then [0xc0 + n / 0x40, 0x80 + n % 0x40]
  else if n < 0x10000 then [0xe0 + n / 0x1000, 0x80 + n / 0x40 % 0x40, 0x80 + n % 0x40]
  else [0xf0 + n / 0x40000, 0x80 + n / 0x1000 % 0x40, 0x80 + n / 0x40 % 0x40, 0x80 + n % 0x40]

/-- The characters `encodeURIComponent` leaves unescaped. -/
def isUriUnescaped (c : Char) : Bool :=
  (('a' ≤ c && c ≤ 'z') || ('A' ≤ c && c ≤ 'Z') || ('0' ≤ c && c ≤ '9') ||
   c.toNat == 45 || c.toNat == 95 || c.toNat == 46 || c.toNat == 33 || c.toNat == 126 ||
   c.toNat == 42 || c.toNat == 39 || c.toNat == 40 || c.toNat == 41)

def encodeURIComponent (s : String) : String :=
  ⟨s.data.flatMap (fun c =>
    if isUriUnescaped c then [c]
    else (utf8Bytes c).flatMap (fun b => ['%', hexDigitCh (b / 16), hexDigitCh (b % 16)]))⟩

/-- `str.replace(/c/g, rep)` for a single character. -/
def replaceAllCh (c : Char) (rep : String) (s : String) : String :=
  ⟨s.data.flatMap (fun ch => if ch == c then rep.data else [ch])⟩

/-- `svgToDataUri` (identicon.ts lines 72–77): percent-encode, additionally
escape `'` and `"`, and prefix the data-URI scheme. -/
def svgToDataUri (svg : String) : String :=
  "data:image/svg+xml," ++
    replaceAllCh (Char.ofNat 34) "%22"
      (replaceAllCh (Char.ofNat 39) "%27" (encodeURIComponent svg))

def getTypeIconUri (typeName : String) (size : Nat := 14) : String :=
  svgToDataUri (generateIdenticon typeName size)

def getInheritanceIconUris (typeNames : List String) (size : Nat := 14) : List String :=
  typeNames.map (fun name => getTypeIconUri name size)

def hashStringExport (str : String) : Nat := hashString str

def hashToColorExport (hash : Nat) (offset : Nat := 0) : String := hashToColor hash offset

def generatePatternExport (hash : Nat) : List (List Bool) := generatePattern hash

/-- `generateCombinedIdenticon` (identicon.ts lines 94–122). -/
def generateCombinedIdenticon (typeNames : List String) (size : Nat := 14) : String :=
  let totalWidth := typeNames.length * size
  "<svg xmlns=\"http://www.w3.org/2000/svg\" width=\"" ++ natS totalWidth ++
      "\" height=\"" ++ natS size ++ "\" viewBox=\"0 0 " ++ natS totalWidth ++ " " ++
      natS size ++ "\">" ++
    (typeNames.enum.map (fun p =>
      let hash := hashStringExport p.2
      let pat := generatePatternExport hash
      let color := hashToColorExport hash
      let bgColor := hashToColorExport hash 16
      let offsetX := p.1 * size
      "<rect x=\"" ++ natS offsetX ++ "\" y=\"0\" width=\"" ++ natS size ++
          "\" height=\"" ++ natS size ++ "\" fill=\"" ++ bgColor ++ "\" opacity=\"0.3\"/>" ++
        cellsSvg pat color size (5 * offsetX))).foldl (· ++ ·) "" ++
    "</svg>"

/-! ## The icon caches (identicon.ts lines 137–162)

A JS `Map<string,string>` is an insertion-ordered association list;
`set` overwrites in place or appends. -/

abbrev IconCache := List (String × String)

def mapHas (m : IconCache) (k : String) : Bool := m.any (fun p => p.1 == k)

def mapGet (m : IconCache) (k : String) : Option String :=
  (m.find? (fun p => p.1 == k)).map (fun p => p.2)

def mapSet (m : IconCache) (k v : String) : IconCache :=
  if m.any (fun p => p.1 == k) then m.map (fun p => if p.1 == k then (k, v) else p)
  else m ++ [(k, v)]

/-- The cache key `` `${typeNames.join(':')}:${size}` ``. -/
def combinedKey (typeNames : List String) (size : Nat) : String :=
  joinColon typeNames ++ ":" ++ natS size

/-- `getCombinedIconUri`, with the module-level `combinedIconCache` passed
explicitly: returns the `.get(key)!` result and the updated cache. -/
def getCombinedIconUri (typeNames : List String) (size : Nat) (cache : IconCache) :
    String × IconCache :=
  let key := combinedKey typeNames size
  let cache' :=
    if mapHas cache key then cache
    else mapSet cache key (svgToDataUri (generateCombinedIdenticon typeNames size))
  ((mapGet cache' key).getD "", cache')

/-- `getCachedTypeIconUri`, over the module-level `iconCache`. -/
def getCachedTypeIconUri (typeName : String) (size : Nat) (cache : IconCache) :
    String × IconCache :=
  let key := typeName ++ ":" ++ natS size
  let cache' :=
    if mapHas cache key then cache
    else mapSet cache key (getTypeIconUri typeName size)
  ((mapGet cache' key).getD "", cache')

/-- `clearIconCache` empties both caches. -/
def clearIconCache : IconCache × IconCache := ([], [])

/-! ## Geometric reading of the renderers

The same loops as `generateIdenticon`/`generateCombinedIdenticon`, read off
as the list of rectangles they emit instead of serialized markup; the
coordinates `k · size/5` are kept as exact rationals. -/

structure SvgRect where
  x : ℚ
  y : ℚ
  w : ℚ
  h : ℚ
  fill : String
  opacity : Option ℚ
deriving DecidableEq

/-- The cell loop of either renderer, at horizontal offset `offX`. -/
def cellRects (pat : List (List Bool)) (color : String) (size : Nat) (offX : ℚ) :
    List SvgRect :=
  (List.range 5).flatMap (fun y =>
    ((List.range 5).filter (fun x => (pat.getD y []).getD x false)).map (fun (x : Nat) =>
      ⟨offX + (x : ℚ) * ((size : ℚ) / 5), (y : ℚ) * ((size : ℚ) / 5), (size : ℚ) / 5,
        (size : ℚ) / 5, color, none⟩))

/-- The rectangles `generateIdenticon typeName size` emits: the 30%-opacity
background, then one filled cell per on pattern bit. -/
def generateIdenticonRects (typeName : String) (size : Nat) : List SvgRect :=
  let hash := hashString typeName
  ⟨0, 0, size, size, hashToColor hash 16, some (3 / 10)⟩ ::
    cellRects (generatePattern hash) (hashToColor hash) size 0

/-- The rectangles `generateCombinedIdenticon typeNames size` emits: for the
`i`-th name, a background at `x = i*size` and its cells at offset `i*size`. -/
def generateCombinedIdenticonRects (typeNames : List String) (size : Nat) : List SvgRect :=
  typeNames.enum.flatMap (fun p =>
    let hash := hashStringExport p.2
    ⟨(p.1 * size : Nat), 0, size, size, hashToColorExport hash 16, some (3 / 10)⟩ ::
      cellRects (generatePatternExport hash) (hashToColorExport hash) size (p.1 * size : Nat))

/-- Horizontal translation of a rectangle. -/
def shiftX (d : ℚ) (r : SvgRect) : SvgRect :=
  ⟨r.x + d, r.y, r.w, r.h, r.fill, r.opacity⟩

/-! ## extension.ts: data model

`extension.ts` holds two concatenated revisions of the extension module;
function declarations are hoisted in order, so the later definitions are the
live ones, and those are modelled here (the one place both revisions matter,
`extractTypeFromHoverText`, is embedded twice above). -/

structure Pos where
  line : Nat
  col : Nat
deriving DecidableEq

/-- A `vscode.Range` (start/end positions; `end` is a Lean keyword). -/
structure Rng where
  start : Pos
  stop : Pos
deriving DecidableEq

/-- The `vscode.SymbolKind` values the extension dispatches on:
Variable, Property, Field, Constant, Method, Function, Constructor,
and a stand-in for every other kind. -/
inductive SymKind where
  | var | prop | fld | cst | meth | fn | ctor | other
deriving DecidableEq

/-- A `vscode.DocumentSymbol`: name, kind, selection range, children.
(The full declaration range is never read by the collector.) -/
inductive DocSym where
  | mk (name : String) (kind : SymKind) (selStart : Pos) (selStop : Pos)
      (children : List DocSym)

def DocSym.name : DocSym → String
  | .mk n _ _ _ _ => n

def DocSym.kind : DocSym → SymKind
  | .mk _ k _ _ _ => k

def DocSym.selStart : DocSym → Pos
  | .mk _ _ a _ _ => a

def DocSym.selStop : DocSym → Pos
  | .mk _ _ _ b _ => b

def DocSym.children : DocSym → List DocSym
  | .mk _ _ _ _ cs => cs

/-- An Observation: `{ range, typeName }`. -/
abbrev Obs := Rng × String

/-! ## Inheritance resolver (extension.ts lines 588–617, 1520–1523) -/

def KNOWN_INHERITANCE : List (String × List String) :=
  [("Integer", ["Number", "Object"]),
   ("Long", ["Number", "Object"]),
   ("Double", ["Number", "Object"]),
   ("Float", ["Number", "Object"]),
   ("String", ["Object"]),
   ("Boolean", ["Object"]),
   ("Number", ["Object"]),
   ("ArrayList", ["AbstractList", "Object"]),
   ("HashMap", ["AbstractMap", "Object"]),
   ("Array", ["Object"]),
   ("Map", ["Object"]),
   ("Set", ["Object"]),
   ("Date", ["Object"]),
   ("Promise", ["Object"]),
   ("List", ["IList", "Object"]),
   ("Dictionary", ["IDictionary", "Object"]),
   ("StringBuilder", ["Object"]),
   ("DataFrame", ["Object"]),
   ("Series", ["Object"]),
   ("Vec", []),
   ("Option", []),
   ("Result", [])]

/-- Lookup in the object literal, restricted to its own (literal) keys;
`kiLookupJs` below adds the prototype chain the JS lookup also consults. -/
def kiLookup (typeName : String) : Option (List String) :=
  (KNOWN_INHERITANCE.find? (fun p => p.1 == typeName)).map (fun p => p.2)

/-- `getInheritanceChain`: `parents ? [typeName, ...parents] : [typeName]`,
on the own-key lookup.  In JS an *empty array is truthy*, so a
present-but-empty entry (`'Vec'`) takes the first branch and spreads to
nothing.  This is the restriction the render pass model uses; the version
with the prototype chain and its TypeError is `getInheritanceChainJs`
below, and the two agree away from the `Object.prototype` keys (proven in
the C8 theorem). -/
def getInheritanceChain (typeName : String) : List String :=
  match kiLookup typeName with
  | some parents => typeName :: parents
  | none => [typeName]

/-- The own property keys of `Object.prototype` (V8/Node).
`KNOWN_INHERITANCE` is an object literal, so indexing it with one of these
finds the inherited property: a function (for `__proto__`, an object) —
truthy and not iterable. -/
def objectProtoKeys : List String :=
  ["constructor", "__defineGetter__", "__defineSetter__", "hasOwnProperty",
   "__lookupGetter__", "__lookupSetter__", "isPrototypeOf",
   "propertyIsEnumerable", "toString", "valueOf", "__proto__",
   "toLocaleString"]

/-- The values `KNOWN_INHERITANCE[typeName]` can evaluate to in ECMAScript:
an own entry's array, a truthy non-iterable inherited from
`Object.prototype`, or `undefined`. -/
inductive KiValue where
  | arr (parents : List String)
  | protoVal
  | absent

/-- `KNOWN_INHERITANCE[typeName]` as ECMAScript evaluates it: own keys
first, then the `Object.prototype` properties, else `undefined`. -/
def kiLookupJs (typeName : String) : KiValue :=
  match kiLookup typeName with
  | some parents => .arr parents
  | none => if objectProtoKeys.contains typeName then .protoVal else .absent

/-- `getInheritanceChain` (lines 1520–1523) over the full JS lookup, with
the failure made explicit: when the lookup is truthy the function spreads
it, so an `Object.prototype` hit throws a TypeError (`none`); an own entry
— the empty array included — yields `typeName :: parents`, and `undefined`
yields `[typeName]`. -/
def getInheritanceChainJs (typeName : String) : Option (List String) :=
  match kiLookupJs typeName with
  | .arr parents => some (typeName :: parents)
  | .protoVal => none
  | .absent => some [typeName]

/-! ## Configuration (extension.ts lines 670–678)

The host's configuration store offers the six `typekon.*` settings the
README documents (including `typekon.iconSize`); `loadConfig` reads five of
them into the module-level flags and never reads `iconSize`. -/

structure HostConfig where
  enabled : Bool
  showInheritance : Bool
  showOnDeclaration : Bool
  showOnParameters : Bool
  showOnUsage : Bool
  iconSize : Nat

/-- The module-level mutable flags. -/
structure Flags where
  isEnabled : Bool
  showInheritance : Bool
  showOnDeclaration : Bool
  showOnParameters : Bool
  showOnUsage : Bool

def loadConfig (cfg : HostConfig) : Flags :=
  ⟨cfg.enabled, cfg.showInheritance, cfg.showOnDeclaration, cfg.showOnParameters,
   cfg.showOnUsage⟩

/-! ## Grouping/rendering adapter (extension.ts lines 724–773) -/

/-- One `typeGroups` entry: key, member ranges, resolved chain. -/
abbrev Group := String × List Rng × List String

/-- The grouping loop: key is the joined chain when inheritance display is
on, the bare type name otherwise; a fresh key appends a group (JS `Map`
keeps insertion order), members are pushed in observation order. -/
def groupObs (showInh : Bool) (typeInfos : List Obs) : List Group :=
  typeInfos.foldl (fun groups info =>
    let chain := getInheritanceChain info.2
    let key := if showInh then joinColon chain else info.2
    if groups.any (fun g => g.1 == key) then
      groups.map (fun g => if g.1 == key then (g.1, g.2.1 ++ [info.1], g.2.2) else g)
    else groups ++ [(key, [info.1], chain)]) []

/-- One prepared decoration group: the composite-icon request
(name sequence and pixel size), the reported width, the member ranges and
the tooltip. -/
structure RenderEntry where
  key : String
  iconNames : List String
  iconSize : Nat
  totalWidth : Nat
  ranges : List Rng
  hoverMessage : String
deriving DecidableEq

def joinArrow : List String → String
  | [] => ""
  | [n] => n
  | n :: rest => n ++ " → " ++ joinArrow rest

/-- The render-table construction of `updateDecorationsWithLSP`:
`const iconSize = 14` (line 748) — a constant, whatever the host
configuration holds. -/
def renderPass (fl : Flags) (typeInfos : List Obs) : List RenderEntry :=
  let iconSize := 14
  (groupObs fl.showInheritance typeInfos).map (fun g =>
    let chain := g.2.2
    let typesToShow := if fl.showInheritance then chain else [chain.headD ""]
    let hoverMessage := "Type: " ++ chain.headD "" ++
      (if chain.length > 1 then "\nInherits: " ++ joinArrow (chain.drop 1) else "")
    ⟨g.1, typesToShow, iconSize, typesToShow.length * iconSize, g.2.1, hoverMessage⟩)

/-- A render pass as driven by the host configuration. -/
def renderPassOfConfig (cfg : HostConfig) (typeInfos : List Obs) : List RenderEntry :=
  renderPass (loadConfig cfg) typeInfos

/-! ## Observation collector (later revision, extension.ts lines 787–1351)

The external collaborators are oracles: hover contents per position and
highlight ranges per position.  The asynchronous batches are modelled as the
sequential run in source order; every strategy that deduplicates does so
through a membership test immediately before each insertion, so the
properties proved below do not depend on the interleaving. -/

/-- A document snapshot: its lines (`getText()` is the `"\n"`-join). -/
structure Doc where
  lines : List String

def joinNl : List String → List Char
  | [] => []
  | [l] => l.data
  | l :: rest => l.data ++ '\n' :: joinNl rest

/-- `document.getText()`. -/
def docText (d : Doc) : List Char := joinNl d.lines

abbrev HoverFn := Pos → List String

abbrev HighlightFn := Pos → List Rng

/-- `getTypeFromHover` (lines 1481–1518): run the extractor over each hover
content in order, first non-null result wins; lookup failure is `none`. -/
def getTypeFromHover (lang : String) (hov : HoverFn) (pos : Pos) : Option String :=
  (hov pos).findSome? (fun text => extractTypeFromHoverText text lang)

/-- `` `${line}:${character}` `` — the deduplication key. -/
def posKeyS (p : Pos) : String := natS p.line ++ ":" ++ natS p.col

mutual

/-- `collectTargetSymbols` (lines 1246–1259): push matching kinds, then
recurse into children. -/
def collectTargetSym (tks : List SymKind) : DocSym → List DocSym
  | .mk n k a b children =>
    (if tks.contains k then [DocSym.mk n k a b children] else []) ++
      collectTargetSyms tks children

def collectTargetSyms (tks : List SymKind) : List DocSym → List DocSym
  | [] => []
  | s :: rest => collectTargetSym tks s ++ collectTargetSyms tks rest

end

mutual

/-- `collectParameterSymbols` (lines 1262–1291): under a function, method or
constructor symbol, append each Variable/Field child whose selection start
is not already present; then recurse into children. -/
def collectParamSym (acc : List DocSym) : DocSym → List DocSym
  | .mk _ k _ _ children =>
    let acc :=
      if k == SymKind.fn || k == SymKind.meth || k == SymKind.ctor then
        children.foldl (fun acc child =>
          if (child.kind == SymKind.var || child.kind == SymKind.fld) &&
              !(acc.any (fun r => r.selStart == child.selStart)) then
            acc ++ [child]
          else acc) acc
      else acc
    collectParamSyms acc children

def collectParamSyms (acc : List DocSym) : List DocSym → List DocSym
  | [] => acc
  | s :: rest => collectParamSyms (collectParamSym acc s) rest

end

mutual

/-- `collectMethodSymbols` (lines 1216–1232). -/
def collectMethodSym : DocSym → List DocSym
  | .mk n k a b children =>
    (if k == SymKind.meth || k == SymKind.fn || k == SymKind.ctor then
      [DocSym.mk n k a b children]
    else []) ++ collectMethodSyms children

def collectMethodSyms : List DocSym → List DocSym
  | [] => []
  | s :: rest => collectMethodSym s ++ collectMethodSyms rest

end

/-- The running `(results, existingPositions)` pair every deduplicating
strategy threads. -/
structure ScanSt where
  results : List Obs
  existing : List String

/-- The `addResult` closure of `collectGoAdditionalTypes` (lines 865–871)
and the guarded push of the other strategies: insert only when the
position's key is absent, recording the key. -/
def guardedAdd (st : ScanSt) (rng : Rng) (typeName : String) : ScanSt :=
  let key := posKeyS rng.start
  if st.existing.contains key then st
  else ⟨st.results ++ [(rng, typeName)], st.existing ++ [key]⟩

/-- `/\b([a-zA-Z_]\w*)\b/g` of `collectMethodParametersViaHover`. -/
def identRx : Rx :=
  ⟨reSeq [.wordb, .grp 1 (.cat idStart (.star false aW)), .wordb], false⟩

/-- One identifier found inside a parameter list (lines 1186–1209): skip if
the position is known, query hover, keep the type only when it differs from
the identifier itself, re-check, insert. -/
def viaHoverStep (lang : String) (hov : HoverFn) (lineNum parenOpen : Nat)
    (paramsStr : List Char) (st : ScanSt) (m : MatchRes) : ScanSt :=
  let identName := ((m.capStr paramsStr 1).getD []).asString
  let charPos := parenOpen + 1 + m.first
  let pos : Pos := ⟨lineNum, charPos⟩
  if st.existing.contains (posKeyS pos) then st
  else
    match getTypeFromHover lang hov pos with
    | some typeName =>
      if typeName != identName then
        guardedAdd st ⟨pos, ⟨lineNum, charPos + identName.length⟩⟩ typeName
      else st
    | none => st

/-- `line.indexOf(needle, from)`. -/
def jsIndexOfFrom (hay needle : List Char) (start : Nat) : Option Nat :=
  (idxOfSeq needle (hay.drop start)).map (fun i => i + start)

/-- One method symbol processed by `collectMethodParametersViaHover`
(lines 1166–1210): the signature line's parenthesized span, scanned for
identifiers. -/
def viaHoverMethod (doc : Doc) (lang : String) (hov : HoverFn) (st : ScanSt)
    (method : DocSym) : ScanSt :=
  let lineNum := method.selStart.line
  let text := (doc.lines.getD lineNum "").data
  match jsIndexOfFrom text ['('] 0, (idxOfSeq [')'] text.reverse).map
      (fun i => text.length - 1 - i) with
  | some parenOpen, some parenClose =>
    if parenClose ≤ parenOpen then st
    else
      let paramsStr := listSlice text (parenOpen + 1) parenClose
      if (jsTrim paramsStr).isEmpty then st
      else
        (execAll identRx paramsStr).foldl
          (viaHoverStep lang hov lineNum parenOpen paramsStr) st
  | _, _ => st

/-- `collectMethodParametersViaHover` (lines 1150–1213): dedup set seeded
from the results present at entry. -/
def viaHoverPhase (doc : Doc) (lang : String) (hov : HoverFn) (symbols : List DocSym)
    (results : List Obs) : List Obs :=
  let st : ScanSt := ⟨results, results.map (fun r => posKeyS r.1.start)⟩
  ((collectMethodSyms symbols).foldl (viaHoverMethod doc lang hov) st).results

/-! ## Go structural scan (extension.ts lines 850–1147) -/

/-- `document.positionAt(offset)` over the `"\n"`-joined lines. -/
def positionAt : List String → Nat → Pos
  | [], _ => ⟨0, 0⟩
  | [l], off => ⟨0, min off l.length⟩
  | l :: rest, off =>
    if off ≤ l.length then ⟨0, off⟩
    else
      let p := positionAt rest (off - l.length - 1)
      ⟨p.line + 1, p.col⟩

/-- `/func\s+(?:\([^)]*\)\s*)?(\w+)\s*\(([^)]*)\)/g` -/
def funcRx : Rx :=
  ⟨reSeq [reStr "func", wsP,
    reOpt (reSeq [.lit '(', .star false (.cls true [.one ')']), .lit ')', wsS]),
    .grp 1 wP, wsS, .lit '(', .grp 2 (.star false (.cls true [.one ')'])), .lit ')'], false⟩

def goBuiltinTypes : List String :=
  ["int", "int8", "int16", "int32", "int64",
   "uint", "uint8", "uint16", "uint32", "uint64", "uintptr",
   "float32", "float64", "complex64", "complex128",
   "bool", "string", "byte", "rune", "error", "any"]

/-- `isGoTypeName` (lines 986–1001); the last test is `/^[A-Z]/`. -/
def isGoTypeName (name : String) : Bool :=
  goBuiltinTypes.contains name ||
  name.startsWith "*" || name.startsWith "[]" || name.startsWith "map[" ||
  (match name.data with
   | c :: _ => 'A' ≤ c && c ≤ 'Z'
   | [] => false)

/-- `parseGoParameters` (lines 942–983): split on commas, track the running
offset (`+1` per comma), take each part's first whitespace-separated token
(`trimmed.split(/\s+/)[0]`) as the candidate name unless it looks like a
type name. -/
def parseGoParameters (paramsStr : List Char) : List (String × Nat) :=
  ((splitSeq [','] paramsStr).foldl (fun s part =>
    let trimmed := jsTrim part
    if trimmed.isEmpty then (s.1 + part.length + 1, s.2)
    else
      let leadingSpaces := part.length - (part.dropWhile isSpaceCh).length
      let paramName := (trimmed.takeWhile (fun c => !isSpaceCh c)).asString
      let acc :=
        if !paramName.isEmpty && !isGoTypeName paramName then
          s.2 ++ [(paramName, s.1 + leadingSpaces)]
        else s.2
      (s.1 + part.length + 1, acc)) ((0 : Nat), ([] : List (String × Nat)))).2

/-- `collectGoFunctionParameters` (lines 890–939). -/
def goFuncParamsPhase (doc : Doc) (hov : HoverFn) (text : List Char) (st : ScanSt) :
    ScanSt :=
  (execAll funcRx text).foldl (fun st m =>
    let paramsStr := (m.capStr text 2).getD []
    if (jsTrim paramsStr).isEmpty then st
    else
      let whole := m.whole text
      let paramsStartInMatch :=
        ((idxOfSeq ['('] whole.reverse).map (fun i => whole.length - 1 - i)).getD 0 + 1
      let paramsStartOffset := m.first + paramsStartInMatch
      (parseGoParameters paramsStr).foldl (fun st param =>
        let position := positionAt doc.lines (paramsStartOffset + param.2)
        if st.existing.contains (posKeyS position) then st
        else
          match getTypeFromHover "go" hov position with
          | some t =>
            guardedAdd st ⟨position, ⟨position.line, position.col + param.1.length⟩⟩ t
          | none => st) st) st

/-- `/^\s*for\s+(\w+|_)\s*,\s*(\w+)\s*:=\s*range/` -/
def forRangeRx : Rx :=
  ⟨reSeq [.bol, wsS, reStr "for", wsP, .grp 1 (.alt wP (.lit '_')), wsS, .lit ',', wsS,
    .grp 2 wP, wsS, .lit ':', .lit '=', wsS, reStr "range"], false⟩

/-- `/\b(\w+(?:\s*,\s*\w+)*)\s*:=/g` -/
def shortDeclRx : Rx :=
  ⟨reSeq [.wordb, .grp 1 (.cat wP (.star false (reSeq [wsS, .lit ',', wsS, wP]))), wsS,
    .lit ':', .lit '='], false⟩

/-- `/\bvar\s+(\w+)\s+/g` -/
def varDeclRx : Rx :=
  ⟨reSeq [.wordb, reStr "var", wsP, .grp 1 wP, wsP], false⟩

/-- `isValidGoIdentifier`: `/^[a-zA-Z_][a-zA-Z0-9_]*$/`. -/
def isValidGoIdent (name : String) : Bool :=
  match name.data with
  | [] => false
  | c :: rest =>
    (('a' ≤ c && c ≤ 'z') || ('A' ≤ c && c ≤ 'Z') || c == '_') &&
      rest.all (fun d =>
        ('a' ≤ d && d ≤ 'z') || ('A' ≤ d && d ≤ 'Z') || ('0' ≤ d && d ≤ '9') || d == '_')

/-- The guarded hover-query-and-insert shared by the Go strategies. -/
def goQueryAdd (hov : HoverFn) (st : ScanSt) (position : Pos) (len : Nat) : ScanSt :=
  if st.existing.contains (posKeyS position) then st
  else
    match getTypeFromHover "go" hov position with
    | some t => guardedAdd st ⟨position, ⟨position.line, position.col + len⟩⟩ t
    | none => st

/-- One line of `collectGoShortVarDeclarations` (lines 1015–1101): the
for-range form short-circuits the generic `:=` scan. -/
def goShortVarLine (hov : HoverFn) (st : ScanSt) (lineNum : Nat) (line : List Char) :
    ScanSt :=
  match jsMatch forRangeRx line with
  | some m =>
    let keyVar := ((m.capStr line 1).getD []).asString
    let valueVar := ((m.capStr line 2).getD []).asString
    let st :=
      if keyVar != "_" then
        let keyIndex := (jsIndexOfFrom line keyVar.data
          ((jsIndexOfFrom line "for".data 0).getD 0 + 3)).getD 0
        goQueryAdd hov st ⟨lineNum, keyIndex⟩ keyVar.length
      else st
    let valueIndex := (jsIndexOfFrom line valueVar.data
      ((jsIndexOfFrom line [','] 0).getD 0)).getD 0
    goQueryAdd hov st ⟨lineNum, valueIndex⟩ valueVar.length
  | none =>
    (execAll shortDeclRx line).foldl (fun st m =>
      let varsStr := (m.capStr line 1).getD []
      ((splitSeq [','] varsStr).foldl (fun s varPart =>
        let trimmed := jsTrim varPart
        if trimmed.isEmpty || !isValidGoIdent trimmed.asString then
          (s.1 + varPart.length + 1, s.2)
        else
          let leadingSpaces := varPart.length - (varPart.dropWhile isSpaceCh).length
          let st := goQueryAdd hov s.2 ⟨lineNum, s.1 + leadingSpaces⟩ trimmed.length
          (s.1 + varPart.length + 1, st)) (m.first, st)).2) st

/-- `collectGoShortVarDeclarations` over `text.split('\n')`. -/
def goShortVarPhase (hov : HoverFn) (text : List Char) (st : ScanSt) : ScanSt :=
  ((splitSeq ['\n'] text).enum.foldl (fun st p => goShortVarLine hov st p.1 p.2) st)

/-- `collectGoVarDeclarations` (lines 1107–1142); note
`match[0].indexOf(varName)` finds the first occurrence *inside the matched
text*, which begins with `var`. -/
def goVarPhase (doc : Doc) (hov : HoverFn) (text : List Char) (st : ScanSt) : ScanSt :=
  (execAll varDeclRx text).foldl (fun st m =>
    let varName := ((m.capStr text 1).getD []).asString
    let varOffset := m.first + (idxOfSeq varName.data (m.whole text)).getD 0
    goQueryAdd hov st (positionAt doc.lines varOffset) varName.length) st

/-- `collectGoAdditionalTypes` (lines 850–887): one shared dedup set seeded
from the results so far, three strategies behind their flags. -/
def collectGoAdditionalTypes (doc : Doc) (hov : HoverFn) (fl : Flags)
    (results : List Obs) : List Obs :=
  let text := docText doc
  let st : ScanSt := ⟨results, results.map (fun r => posKeyS r.1.start)⟩
  let st := if fl.showOnParameters then goFuncParamsPhase doc hov text st else st
  let st := if fl.showOnDeclaration then goShortVarPhase hov text st else st
  let st := if fl.showOnDeclaration then goVarPhase doc hov text st else st
  st.results

/-! ## Usage-site expansion (later revision, lines 1294–1351) -/

/-- The `declarations` map: keyed by position, `Map.set` semantics
(first-insertion order, later writes replace). -/
def declMap (results : List Obs) : List (String × Obs) :=
  results.foldl (fun m r =>
    let key := posKeyS r.1.start
    if m.any (fun p => p.1 == key) then m.map (fun p => if p.1 == key then (key, r) else p)
    else m ++ [(key, r)]) []

/-- `collectVariableUsages` (DocumentHighlights strategy): per declaration,
add one observation per unseen highlight position, carrying the
declaration's type name. -/
def collectVariableUsages (hil : HighlightFn) (results : List Obs) : List Obs :=
  let st : ScanSt := ⟨results, results.map (fun r => posKeyS r.1.start)⟩
  ((declMap results).foldl (fun st kv =>
    (hil kv.2.1.start).foldl (fun st highlight => guardedAdd st highlight kv.2.2) st)
    st).results

/-- The target kinds pushed when declarations are shown (lines 793–802):
Variable, Property, Field, Constant. -/
def targetKindsOf (fl : Flags) : List SymKind :=
  if fl.showOnDeclaration then [SymKind.var, SymKind.prop, SymKind.fld, SymKind.cst]
  else []

/-- `collectSymbolTypes` (later revision, lines 788–847), sequentially:
target kinds when declarations are shown; parameter symbols recovered from
children; `collectMethodParametersViaHover` runs *before* the symbol walk's
results are pushed (its dedup set is seeded from an empty results array);
the symbol walk then appends its observations unconditionally; the Go scan
and the usage expansion follow, each deduplicating against everything
already collected. -/
def collectSymbolTypes (doc : Doc) (lang : String) (hov : HoverFn) (hil : HighlightFn)
    (fl : Flags) (symbols : List DocSym) : List Obs :=
  let targetSymbols := collectTargetSyms (targetKindsOf fl) symbols
  let targetSymbols :=
    if fl.showOnParameters then collectParamSyms targetSymbols symbols else targetSymbols
  let results := if fl.showOnParameters then viaHoverPhase doc lang hov symbols [] else []
  let results := results ++ targetSymbols.filterMap (fun s =>
    (getTypeFromHover lang hov s.selStart).map (fun t => ((⟨s.selStart, s.selStop⟩ : Rng), t)))
  let results := if lang == "go" then collectGoAdditionalTypes doc hov fl results else results
  if fl.showOnUsage then collectVariableUsages hil results else results

/-! ## Auxiliary predicates used by the statements below -/

/-- A cache-safe type name: non-empty and free of the `':'` join separator. -/
def goodName (n : String) : Prop := n ≠ "" ∧ ':' ∉ n.data

instance (n : String) : Decidable (goodName n) := by
  unfold goodName
  infer_instance

/-- The combined-icon cache states reachable by calls whose names are all
cache-safe (the empty cache is the module-load state and the `clearIconCache`
state). -/
inductive ReachC : IconCache → Prop where
  | nil : ReachC []
  | step (ns : List String) (sz : Nat) (c : IconCache) : ReachC c →
      (∀ n ∈ ns, goodName n) → ReachC (getCombinedIconUri ns sz c).2

/-- `canConsume re ch`: some atom of `re` can match the character `ch`
(over-approximation by ignoring context; used contrapositively). -/
def canConsume : Re → Char → Bool
  | .eps, _ | .bol, _ | .eol, _ | .wordb, _ => false
  | .lit c, ch => ch == c
  | .cls neg items, ch => clsHits neg items ch
  | .dot, ch => !isLineTermCh ch
  | .cat r t, ch | .alt r t, ch => canConsume r ch || canConsume t ch
  | .star _ r, ch | .grp _ r, ch => canConsume r ch

/-- `grp1Consume re ch`: some atom lying inside a capture group numbered 1
can match `ch`. -/
def grp1Consume : Re → Char → Bool
  | .cat r t, ch | .alt r t, ch => grp1Consume r ch || grp1Consume t ch
  | .star _ r, ch => grp1Consume r ch
  | .grp i r, ch => (if i == 1 then canConsume r ch else false) || grp1Consume r ch
  | _, _ => false

/-- Every character an atom of `re` can consume satisfies `P`. -/
def atomsSat (P : Char → Prop) : Re → Prop
  | .eps | .bol | .eol | .wordb => True
  | .lit c => P c
  | .cls neg items => ∀ ch, clsHits neg items ch = true → P ch
  | .dot => ∀ ch, isLineTermCh ch = false → P ch
  | .cat r t | .alt r t => atomsSat P r ∧ atomsSat P t
  | .star _ r => atomsSat P r
  | .grp _ r => atomsSat P r

/-- Every character consumed inside a group numbered 1 satisfies `P`. -/
def grp1Sat (P : Char → Prop) : Re → Prop
  | .cat r t | .alt r t => grp1Sat P r ∧ grp1Sat P t
  | .star _ r => grp1Sat P r
  | .grp i r => (i = 1 → atomsSat P r) ∧ grp1Sat P r
  | _ => True

/-- Every character of the slice `[a, b)` of `s` satisfies `P`. -/
def sliceSat (s : List Char) (P : Char → Prop) (a b : Nat) : Prop :=
  ∀ ch ∈ listSlice s a b, P ch

/-- Captures numbered 1 recorded in `caps` slice out only `P`-characters. -/
def capsSat (s : List Char) (P : Char → Prop) (caps : Caps) : Prop :=
  ∀ a b, capLookup caps 1 = some (a, b) → sliceSat s P a b

/-- The four ECMAScript LineTerminator characters. -/
def lineTermChars : List Char := ['\n', '\r', Char.ofNat 0x2028, Char.ofNat 0x2029]

/-- `joinColon` at the character level (for the key-injectivity proofs). -/
def jcCh : List (List Char) → List Char
  | [] => []
  | [n] => n
  | n :: rest => n ++ ':' :: jcCh rest

/-- The deduplication invariant of a scan state: result positions are
pairwise distinct (as keys) and every result's key is recorded. -/
def stOK (st : ScanSt) : Prop :=
  (st.results.map (fun r => posKeyS r.1.start)).Nodup ∧
  ∀ r ∈ st.results, posKeyS r.1.start ∈ st.existing

/-- Every entry of a combined-icon cache is the rendering of the cache-safe
spec its key encodes. -/
def cacheOK (c : IconCache) : Prop :=
  ∀ kv ∈ c, ∃ ns sz, (∀ n ∈ ns, goodName n) ∧ kv.1 = combinedKey ns sz ∧
    kv.2 = svgToDataUri (generateCombinedIdenticon ns sz)

/-! # Theorems -/

/-! ## C1: the Go slice fixture -/

/-- C1.  `extractTypeFromHoverText` on the hover text
`field history []string // size=24` with language tag `go` returns
`"string"`: the Go pattern captures `[]string` (stopping before the `//`
comment) and normalization strips the leading slice marker. -/
theorem extractType_go_slice_fixture :
    extractTypeFromHoverText "field history []string // size=24" "go" = some "string" := by
  decide

/-! ## C8: inheritance chains -/

/-- C8 counterexample: `"toString"` is absent from the literal table, yet
the JS lookup finds `Object.prototype.toString`; that function is truthy
and not iterable, so `[typeName, ...parents]` throws a TypeError instead of
returning `["toString"]`. -/
theorem getInheritanceChain_proto_counterexample :
    kiLookup "toString" = none ∧ getInheritanceChainJs "toString" = none :=
  ⟨by decide, by decide⟩

/-- C8 as amended.  For every type name that is not one of the twelve
`Object.prototype` property keys, `getInheritanceChain` returns (rather
than throws) a chain equal to the own-key model's: non-empty, headed by the
queried name; a name absent from `KNOWN_INHERITANCE` yields the one-element
chain; `"Integer"` resolves to its recorded ancestors and the explicitly
empty entry for `"Vec"` (an empty array is truthy in JS) collapses to the
identity chain.  On the `Object.prototype` keys the spread throws instead
(the counterexample). -/
theorem getInheritanceChainJs_invariants (name : String)
    (hp : objectProtoKeys.contains name = false) :
    getInheritanceChainJs name = some (getInheritanceChain name) ∧
    getInheritanceChain name ≠ [] ∧
    (getInheritanceChain name).head? = some name ∧
    (kiLookup name = none → getInheritanceChain name = [name]) ∧
    getInheritanceChainJs "Integer" = some ["Integer", "Number", "Object"] ∧
    getInheritanceChainJs "Vec" = some ["Vec"] := by
  refine ⟨?_, ?_, ?_, ?_, by decide, by decide⟩
  · unfold getInheritanceChainJs kiLookupJs getInheritanceChain
    cases kiLookup name with
    | some parents => rfl
    | none =>
      rw [hp]
      simp
  · unfold getInheritanceChain
    cases kiLookup name <;> simp
  · unfold getInheritanceChain
    cases kiLookup name <;> simp
  · intro h
    unfold getInheritanceChain
    rw [h]

/-- Witness for C8 as amended, at the table-absent name `"Flurble"`. -/
theorem getInheritanceChainJs_invariants_witness :
    objectProtoKeys.contains "Flurble" = false ∧
    (getInheritanceChainJs "Flurble" = some (getInheritanceChain "Flurble") ∧
     getInheritanceChain "Flurble" ≠ [] ∧
     (getInheritanceChain "Flurble").head? = some "Flurble" ∧
     (kiLookup "Flurble" = none → getInheritanceChain "Flurble" = ["Flurble"]) ∧
     getInheritanceChainJs "Integer" = some ["Integer", "Number", "Object"] ∧
     getInheritanceChainJs "Vec" = some ["Vec"]) :=
  ⟨by decide, getInheritanceChainJs_invariants "Flurble" (by decide)⟩

/-! ## C9: the adapter's icon size -/

/-- C9.  The adapter requests one composite icon per group — over the full
chain when inheritance display is on, over `[chain[0]]` otherwise — and
reports width `icon-count * size`; but the size is the hard-coded
`const iconSize = 14`, not the configured `typekon.iconSize`: with the icon
size configured to 20 the pass still requests 14-pixel icons. -/
theorem renderPass_ignores_configured_iconSize :
    (renderPassOfConfig ⟨true, true, true, true, false, 20⟩
        [(⟨⟨0, 0⟩, ⟨0, 1⟩⟩, "Integer")]).map
      (fun e => (e.iconNames, e.iconSize, e.totalWidth)) =
      [(["Integer", "Number", "Object"], 14, 42)] ∧
    (renderPassOfConfig ⟨true, false, true, true, false, 20⟩
        [(⟨⟨0, 0⟩, ⟨0, 1⟩⟩, "Integer")]).map
      (fun e => (e.iconNames, e.iconSize, e.totalWidth)) =
      [(["Integer"], 14, 14)] ∧
    (renderPassOfConfig ⟨true, true, true, true, false, 20⟩
        [(⟨⟨0, 0⟩, ⟨0, 1⟩⟩, "Integer")]).map (fun e => e.iconSize) ≠ [20] := by
  refine ⟨by decide, by decide, by decide⟩

/-! ## C3: color ranges -/

theorem jsRem_lb (a b : Int) (hb : 0 < b) : -b < jsRem a b := by
  unfold jsRem
  split
  · have := Int.emod_nonneg a (by omega : b ≠ 0)
    omega
  · have := Int.emod_lt_of_pos (-a) hb
    omega

theorem jsRem_ub (a b : Int) (hb : 0 < b) : jsRem a b < b := by
  unfold jsRem
  split
  · exact Int.emod_lt_of_pos a hb
  · have := Int.emod_nonneg (-a) (by omega : b ≠ 0)
    omega

theorem jsRem_nonneg (a b : Int) (ha : 0 ≤ a) (hb : 0 < b) : 0 ≤ jsRem a b := by
  unfold jsRem
  rw [if_pos ha]
  exact Int.emod_nonneg a (by omega)

/-- C3 counterexample: at the unsigned 32-bit hash `0xffffffff` the signed
`>>` makes `(hash >> 4) % 20` negative, so the lightness is 44, outside
`[45, 65)`; `hashToColor` renders exactly that value. -/
theorem hashToColor_lightness_counterexample :
    hashToColor 4294967295 0 = "hsl(359, 75%, 44%)" ∧ lightOf 4294967295 = 44 ∧
    ¬ 45 ≤ lightOf 4294967295 := by
  refine ⟨by decide, by decide, by decide⟩

/-- C3 as amended.  For every unsigned 32-bit hash and both renderer
offsets: hue lies in `[0, 360)` and saturation in `[60, 90)` as claimed, but
lightness only lies in `[26, 65)`; the claimed `[45, 65)` is guaranteed
whenever the hash is below `2^31` (a non-negative `ToInt32` reading), and
only then — but the converse fails: above `2^31` the signed remainder is
nonpositive yet can be zero, so hash `4294966976` (`ToInt32` reading
`-320`) still gets lightness 45. -/
theorem hashToColor_ranges (hash : Nat) (hh : hash < pow32) (offset : Nat)
    (_ho : offset = 0 ∨ offset = 16) :
    (0 ≤ hueOf hash offset ∧ hueOf hash offset < 360) ∧
    (60 ≤ satOf hash ∧ satOf hash < 90) ∧
    (26 ≤ lightOf hash ∧ lightOf hash < 65) ∧
    (hash < 2 ^ 31 → 45 ≤ lightOf hash) ∧
    (2 ^ 31 ≤ 4294966976 ∧ lightOf 4294966976 = 45) := by
  refine ⟨⟨?_, ?_⟩, ⟨?_, ?_⟩, ⟨?_, ?_⟩, ?_, by decide, by decide⟩
  · have h1 := jsRem_lb (jsShr hash offset) 360 (by omega)
    exact jsRem_nonneg _ _ (by omega) (by omega)
  · exact jsRem_ub _ _ (by omega)
  · have := jsRem_nonneg (hash : Int) 30 (by positivity) (by omega)
    unfold satOf
    omega
  · have := jsRem_ub (hash : Int) 30 (by omega)
    unfold satOf
    omega
  · have := jsRem_lb (jsShr hash 4) 20 (by omega)
    unfold lightOf
    omega
  · have := jsRem_ub (jsShr hash 4) 20 (by omega)
    unfold lightOf
    omega
  · intro h31
    have hto : toInt32 hash = (hash : Int) := by
      unfold toInt32
      rw [Nat.mod_eq_of_lt hh]
      rw [if_pos (by exact_mod_cast h31)]
    have hshr : 0 ≤ jsShr hash 4 := by
      unfold jsShr
      rw [hto]
      exact Int.fdiv_nonneg (by positivity) (by positivity)
    have := jsRem_nonneg (jsShr hash 4) 20 hshr (by omega)
    unfold lightOf
    omega

/-- Witness for C3 as amended, at hash 5381 and offset 0. -/
theorem hashToColor_ranges_witness :
    5381 < pow32 ∧
    ((0 ≤ hueOf 5381 0 ∧ hueOf 5381 0 < 360) ∧
     (60 ≤ satOf 5381 ∧ satOf 5381 < 90) ∧
     (26 ≤ lightOf 5381 ∧ lightOf 5381 < 65) ∧
     (5381 < 2 ^ 31 → 45 ≤ lightOf 5381) ∧
     (2 ^ 31 ≤ 4294966976 ∧ lightOf 4294966976 = 45)) :=
  ⟨by decide, hashToColor_ranges 5381 (by decide) 0 (Or.inl rfl)⟩

/-! ## C4: the hash is the djb2 variant -/

theorem xor_mod_pow32 (x c : Nat) (hc : c < pow32) :
    Nat.xor (x % pow32) c = Nat.xor x c % pow32 := by
  have h32 : pow32 = 2 ^ 32 := rfl
  rw [h32] at hc ⊢
  apply Nat.eq_of_testBit_eq
  intro i
  change ((x % 2 ^ 32) ^^^ c).testBit i = ((x ^^^ c) % 2 ^ 32).testBit i
  rw [Nat.testBit_xor, Nat.testBit_mod_two_pow, Nat.testBit_mod_two_pow, Nat.testBit_xor]
  rcases lt_or_ge i 32 with h | h
  · simp [h]
  · have hcb : c.testBit i = false :=
      Nat.testBit_eq_false_of_lt
        (lt_of_lt_of_le hc (Nat.pow_le_pow_right (by norm_num) h))
    simp [Nat.not_lt.2 h, hcb]

theorem hashStep_spec (h c : Nat) (hc : c < pow32) :
    hashStep h c = Nat.xor (h * 33) c % pow32 := by
  unfold hashStep
  have h33 : (h * 32 % pow32 + h) % pow32 = h * 33 % pow32 := by
    conv_rhs => rw [show h * 33 = h * 32 + h by ring]
    rw [Nat.add_mod, Nat.mod_mod_of_dvd _ (dvd_refl _), ← Nat.add_mod]
  rw [h33, xor_mod_pow32 _ _ hc]

theorem utf16Units_lt (c : Char) : ∀ u ∈ utf16Units c, u < pow32 := by
  intro u hu
  have hc : c.toNat < 4294967296 := c.val.toNat_lt_size
  unfold utf16Units at hu
  split at hu
  · simp at hu
    subst hu
    unfold pow32
    omega
  · have hd := Nat.div_le_self (c.toNat - 0x10000) 0x400
    have hm := Nat.mod_lt (c.toNat - 0x10000) (show 0 < 0x400 by norm_num)
    simp at hu
    unfold pow32
    rcases hu with hu | hu <;> omega

theorem jsCharCodes_lt (s : String) : ∀ u ∈ jsCharCodes s, u < pow32 := by
  intro u hu
  unfold jsCharCodes at hu
  rw [List.mem_flatMap] at hu
  obtain ⟨c, _, hc⟩ := hu
  exact utf16Units_lt c u hc

theorem foldl_hashStep_spec :
    ∀ (codes : List Nat) (h : Nat), (∀ c ∈ codes, c < pow32) →
      codes.foldl hashStep h = codes.foldl (fun h c => Nat.xor (h * 33) c % pow32) h := by
  intro codes
  induction codes with
  | nil => intro h _; rfl
  | cons c cs ih =>
    intro h hlt
    simp only [List.foldl_cons]
    rw [hashStep_spec h c (hlt c (by simp)), ih _ (fun d hd => hlt d (by simp [hd]))]

theorem foldl_hashStep_lt :
    ∀ (codes : List Nat) (h : Nat), (∀ c ∈ codes, c < pow32) → h < pow32 →
      codes.foldl hashStep h < pow32 := by
  intro codes
  induction codes with
  | nil => intro h _ hh; exact hh
  | cons c cs ih =>
    intro h hlt hh
    simp only [List.foldl_cons]
    refine ih _ (fun d hd => hlt d (by simp [hd])) ?_
    unfold hashStep pow32 at *
    exact Nat.xor_lt_two_pow (Nat.mod_lt _ (by positivity)) (hlt c (by simp))

/-- C4.  `hashString` is exactly the djb2 variant of the claim: starting
from 5381, each UTF-16 code unit `c` updates the running 32-bit pattern to
`((hash * 33) XOR c) mod 2^32` (the shift-based `(hash << 5) + hash`
formulation wraps to the same value), and the result is an unsigned 32-bit
integer. -/
theorem hashString_djb2 (s : String) :
    hashString s =
      (jsCharCodes s).foldl (fun h c => Nat.xor (h * 33) c % pow32) 5381 ∧
    hashString s < pow32 := by
  constructor
  · exact foldl_hashStep_spec (jsCharCodes s) 5381 (jsCharCodes_lt s)
  · exact foldl_hashStep_lt (jsCharCodes s) 5381 (jsCharCodes_lt s) (by unfold pow32; omega)

/-! ## C6: composite rendering is the shifted single renderings -/

theorem cellRects_map_shift (pat : List (List Bool)) (color : String) (size : Nat)
    (a d : ℚ) :
    (cellRects pat color size a).map (shiftX d) = cellRects pat color size (a + d) := by
  unfold cellRects
  simp only [List.map_flatMap, List.map_map]
  congr 1
  funext y
  congr 1
  funext x
  simp only [Function.comp, shiftX, SvgRect.mk.injEq, and_true, true_and]
  ring

theorem mem_cellRects {pat : List (List Bool)} {color : String} {size : Nat} {offX : ℚ}
    {r : SvgRect} (h : r ∈ cellRects pat color size offX) :
    ∃ x y : Nat, x < 5 ∧
      r = ⟨offX + x * ((size : ℚ) / 5), y * ((size : ℚ) / 5), (size : ℚ) / 5,
        (size : ℚ) / 5, color, none⟩ := by
  unfold cellRects at h
  rw [List.mem_flatMap] at h
  obtain ⟨y, _, hmem⟩ := h
  rw [List.mem_map] at hmem
  obtain ⟨x, hx, heq⟩ := hmem
  rw [List.mem_filter, List.mem_range] at hx
  exact ⟨x, y, hx.1, heq.symm⟩

/-- C6.  The composite image is, rectangle for rectangle (same fills, same
opacity), the single-icon rendering of each name shifted right by
`i * size`; and every rectangle of the `i`-th sub-icon lies inside the
horizontal band `[i*size, (i+1)*size]`, so the sub-icons do not interact. -/
theorem generateCombinedIdenticon_composite_rects (typeNames : List String) (size : Nat) :
    generateCombinedIdenticonRects typeNames size =
      typeNames.enum.flatMap (fun p =>
        (generateIdenticonRects p.2 size).map (shiftX ((p.1 * size : Nat) : ℚ))) ∧
    ∀ p ∈ typeNames.enum,
      ∀ r ∈ (generateIdenticonRects p.2 size).map (shiftX ((p.1 * size : Nat) : ℚ)),
        ((p.1 * size : Nat) : ℚ) ≤ r.x ∧ r.x + r.w ≤ (((p.1 + 1) * size : Nat) : ℚ) := by
  constructor
  · unfold generateCombinedIdenticonRects generateIdenticonRects
    congr 1
    funext p
    rw [List.map_cons, cellRects_map_shift]
    unfold hashStringExport hashToColorExport generatePatternExport shiftX
    rw [zero_add]
  · intro p _ r hr
    rw [List.mem_map] at hr
    obtain ⟨r0, hr0, hshift⟩ := hr
    subst hshift
    simp only [generateIdenticonRects] at hr0
    have hsize : (0 : ℚ) ≤ (size : ℚ) := by positivity
    rcases List.mem_cons.mp hr0 with h | h
    · subst h
      unfold shiftX
      simp only
      push_cast
      exact ⟨le_of_eq (by ring), le_of_eq (by ring)⟩
    · obtain ⟨x, y, hx5, heq⟩ := mem_cellRects h
      subst heq
      unfold shiftX
      simp only
      have hx4 : (x : ℚ) ≤ 4 := by exact_mod_cast Nat.lt_succ_iff.mp hx5
      have hc : (0 : ℚ) ≤ (size : ℚ) / 5 := by positivity
      have hxc : (0 : ℚ) ≤ (x : ℚ) * ((size : ℚ) / 5) := by positivity
      have hmul : ((x : ℚ) + 1) * ((size : ℚ) / 5) ≤ 5 * ((size : ℚ) / 5) :=
        mul_le_mul_of_nonneg_right (by linarith) hc
      have h5 : 5 * ((size : ℚ) / 5) = (size : ℚ) := by ring
      push_cast
      constructor
      · linarith
      · nlinarith [hmul]

/-- Witness for C6 at the concrete composite `["A", "B"]` at size 5. -/
theorem generateCombinedIdenticon_composite_rects_witness :
    generateCombinedIdenticonRects ["A", "B"] 5 =
      (["A", "B"].enum.flatMap (fun p =>
        (generateIdenticonRects p.2 5).map (shiftX ((p.1 * 5 : Nat) : ℚ)))) :=
  (generateCombinedIdenticon_composite_rects ["A", "B"] 5).1

/-! ## Decimal printing: digits, non-emptiness, injectivity -/

theorem natStrAux_irrel : ∀ f1 f2 n, n < f1 → n < f2 → natStrAux f1 n = natStrAux f2 n := by
  intro f1
  induction f1 with
  | zero => intro f2 n h1 _; omega
  | succ f ih =>
    intro f2 n h1 h2
    cases f2 with
    | zero => omega
    | succ g =>
      show natStrAux (f + 1) n = natStrAux (g + 1) n
      by_cases hn : n < 10
      · simp [natStrAux, hn]
      · have hd : n / 10 < n := Nat.div_lt_self (by omega) (by omega)
        simp only [natStrAux, if_neg hn]
        rw [ih g (n / 10) (by omega) (by omega)]

theorem natStr_unfold (n : Nat) :
    natStr n = if n < 10 then [digitCh n] else natStr (n / 10) ++ [digitCh (n % 10)] := by
  rw [show natStr n = if n < 10 then [digitCh n]
    else natStrAux n (n / 10) ++ [digitCh (n % 10)] from rfl]
  by_cases hn : n < 10
  · rw [if_pos hn, if_pos hn]
  · have hd : n / 10 < n := Nat.div_lt_self (by omega) (by omega)
    rw [if_neg hn, if_neg hn]
    congr 1
    exact natStrAux_irrel n (n / 10 + 1) (n / 10) (by omega) (by omega)

theorem digitCh_toNat (d : Nat) (h : d < 10) : (digitCh d).toNat = 48 + d := by
  interval_cases d <;> decide

theorem natStr_digits (n : Nat) : ∀ c ∈ natStr n, 48 ≤ c.toNat ∧ c.toNat ≤ 57 := by
  induction n using Nat.strong_induction_on with
  | _ n ih =>
    rw [natStr_unfold]
    by_cases hn : n < 10
    · rw [if_pos hn]
      intro c hc
      rw [List.mem_singleton] at hc
      subst hc
      rw [digitCh_toNat n hn]
      omega
    · rw [if_neg hn]
      intro c hc
      rcases List.mem_append.mp hc with h | h
      · exact ih (n / 10) (Nat.div_lt_self (by omega) (by omega)) c h
      · rw [List.mem_singleton] at h
        subst h
        rw [digitCh_toNat _ (Nat.mod_lt _ (by omega))]
        have := Nat.mod_lt n (show 0 < 10 by omega)
        omega

theorem natStr_ne_nil (n : Nat) : natStr n ≠ [] := by
  rw [natStr_unfold]
  split <;> simp

theorem colon_not_mem_natStr (n : Nat) : ':' ∉ natStr n := by
  intro h
  have := natStr_digits n ':' h
  revert this
  decide

theorem natStr_inj : ∀ m n, natStr m = natStr n → m = n := by
  intro m
  induction m using Nat.strong_induction_on with
  | _ m ih =>
    intro n h
    rw [natStr_unfold m, natStr_unfold n] at h
    by_cases hm : m < 10 <;> by_cases hn : n < 10
    · rw [if_pos hm, if_pos hn] at h
      have := congrArg (fun l => (l.headD 'x').toNat) h
      simp [digitCh_toNat m hm, digitCh_toNat n hn] at this
      omega
    · rw [if_pos hm, if_neg hn] at h
      have hlen := congrArg List.length h
      have hne := natStr_ne_nil (n / 10)
      cases hl : natStr (n / 10) with
      | nil => exact absurd hl hne
      | cons a l =>
        rw [hl] at hlen
        simp at hlen
    · rw [if_neg hm, if_pos hn] at h
      have hlen := congrArg List.length h
      have hne := natStr_ne_nil (m / 10)
      cases hl : natStr (m / 10) with
      | nil => exact absurd hl hne
      | cons a l =>
        rw [hl] at hlen
        simp at hlen
    · rw [if_neg hm, if_neg hn] at h
      have hrev := congrArg List.reverse h
      simp only [List.reverse_append, List.reverse_singleton, List.singleton_append,
        List.cons.injEq] at hrev
      obtain ⟨hdig, htail⟩ := hrev
      have hd1 : (digitCh (m % 10)).toNat = (digitCh (n % 10)).toNat := by rw [hdig]
      rw [digitCh_toNat _ (Nat.mod_lt _ (by omega)),
        digitCh_toNat _ (Nat.mod_lt _ (by omega))] at hd1
      have hpre : natStr (m / 10) = natStr (n / 10) := by
        have := congrArg List.reverse htail
        simpa using this
      have hdiv := ih (m / 10) (Nat.div_lt_self (by omega) (by omega)) (n / 10) hpre
      omega

/-! ## Separator-based key injectivity -/

theorem colon_split :
    ∀ (a1 a2 t1 t2 : List Char), ':' ∉ a1 → ':' ∉ a2 →
      a1 ++ ':' :: t1 = a2 ++ ':' :: t2 → a1 = a2 ∧ t1 = t2 := by
  intro a1
  induction a1 with
  | nil =>
    intro a2 t1 t2 _ h2 heq
    cases a2 with
    | nil => simpa using heq
    | cons c cs =>
      simp only [List.nil_append, List.cons_append, List.cons.injEq] at heq
      exact absurd (heq.1 ▸ List.mem_cons_self c cs) (heq.1 ▸ h2)
  | cons c cs ih =>
    intro a2 t1 t2 h1 h2 heq
    cases a2 with
    | nil =>
      simp only [List.cons_append, List.nil_append, List.cons.injEq] at heq
      exact absurd (heq.1 ▸ List.mem_cons_self c cs) (by rw [heq.1] at h1; exact h1)
    | cons d ds =>
      simp only [List.cons_append, List.cons.injEq] at heq
      obtain ⟨hcd, hrest⟩ := heq
      have := ih ds t1 t2 (fun h => h1 (List.mem_cons_of_mem c h))
        (fun h => h2 (List.mem_cons_of_mem d h)) hrest
      exact ⟨by rw [hcd, this.1], this.2⟩

theorem mem_colon_jcKey (ns : List (List Char)) (d : List Char) :
    ':' ∈ jcCh ns ++ ':' :: d := by
  simp

theorem jcCh_cons (n : List Char) (ns : List (List Char)) :
    jcCh (n :: ns) = n ++ (match ns with | [] => [] | _ :: _ => ':' :: jcCh ns) := by
  cases ns <;> simp [jcCh]

theorem jcKey_inj :
    ∀ (ns1 ns2 : List (List Char)) (d1 d2 : List Char),
      (∀ x ∈ ns1, x ≠ [] ∧ ':' ∉ x) → (∀ x ∈ ns2, x ≠ [] ∧ ':' ∉ x) →
      ':' ∉ d1 → ':' ∉ d2 →
      jcCh ns1 ++ ':' :: d1 = jcCh ns2 ++ ':' :: d2 → ns1 = ns2 ∧ d1 = d2 := by
  intro ns1
  induction ns1 with
  | nil =>
    intro ns2 d1 d2 _ h2 _ _ heq
    cases ns2 with
    | nil => simpa [jcCh] using heq
    | cons n ns2' =>
      rw [jcCh, jcCh_cons n ns2'] at heq
      obtain ⟨hne, hnc⟩ := h2 n (List.mem_cons_self n ns2')
      cases n with
      | nil => exact absurd rfl hne
      | cons c cs =>
        simp only [List.nil_append, List.cons_append, List.append_assoc,
          List.cons.injEq] at heq
        exact absurd (heq.1 ▸ List.mem_cons_self c cs) (heq.1 ▸ hnc)
  | cons n1 ns1' ih =>
    intro ns2 d1 d2 h1 h2 hd1 hd2 heq
    cases ns2 with
    | nil =>
      rw [jcCh_cons n1 ns1', jcCh] at heq
      obtain ⟨hne, hnc⟩ := h1 n1 (List.mem_cons_self n1 ns1')
      cases n1 with
      | nil => exact absurd rfl hne
      | cons c cs =>
        simp only [List.cons_append, List.append_assoc, List.nil_append,
          List.cons.injEq] at heq
        exact absurd (heq.1 ▸ List.mem_cons_self c cs) (by
          rw [heq.1] at hnc; exact hnc)
    | cons n2 ns2' =>
      rw [jcCh_cons n1 ns1', jcCh_cons n2 ns2'] at heq
      rw [List.append_assoc, List.append_assoc] at heq
      have hU : n1 ++ ':' :: (match ns1' with
          | [] => d1
          | _ :: _ => jcCh ns1' ++ ':' :: d1) = n2 ++ ':' :: (match ns2' with
          | [] => d2
          | _ :: _ => jcCh ns2' ++ ':' :: d2) := by
        cases ns1' <;> cases ns2' <;> simpa using heq
      have hsplit := colon_split n1 n2 _ _
        (h1 n1 (List.mem_cons_self n1 ns1')).2 (h2 n2 (List.mem_cons_self n2 ns2')).2 hU
      obtain ⟨hn, hU2⟩ := hsplit
      subst hn
      cases ns1' with
      | nil =>
        cases ns2' with
        | nil => exact ⟨rfl, by simpa using hU2⟩
        | cons m ms =>
          simp only at hU2
          exact absurd (hU2 ▸ mem_colon_jcKey (m :: ms) d2) hd1
      | cons m1 ms1 =>
        cases ns2' with
        | nil =>
          simp only at hU2
          exact absurd (hU2.symm ▸ mem_colon_jcKey (m1 :: ms1) d1) hd2
        | cons m2 ms2 =>
          simp only at hU2
          have := ih (m2 :: ms2) d1 d2
            (fun x hx => h1 x (List.mem_cons_of_mem n1 hx))
            (fun x hx => h2 x (List.mem_cons_of_mem n1 hx)) hd1 hd2 hU2
          exact ⟨by rw [this.1], this.2⟩

/-! ## C5: the combined-icon cache -/

theorem string_data_inj {s t : String} (h : s.data = t.data) : s = t := by
  cases s
  cases t
  exact congrArg String.mk h

theorem joinColon_data (ns : List String) :
    (joinColon ns).data = jcCh (ns.map String.data) := by
  induction ns with
  | nil => rfl
  | cons n rest ih =>
    cases rest with
    | nil => rfl
    | cons m ms =>
      show (n ++ ":" ++ joinColon (m :: ms)).data = n.data ++ ':' :: jcCh ((m :: ms).map _)
      rw [String.data_append, String.data_append, ih,
        show (":".data) = [':'] by decide]
      simp

theorem combinedKey_data (ns : List String) (sz : Nat) :
    (combinedKey ns sz).data = jcCh (ns.map String.data) ++ ':' :: natStr sz := by
  unfold combinedKey
  rw [String.data_append, String.data_append, joinColon_data,
    show (":".data) = [':'] by decide, show (natS sz).data = natStr sz from rfl]
  simp

theorem combinedKey_inj (ns1 ns2 : List String) (sz1 sz2 : Nat)
    (h1 : ∀ n ∈ ns1, goodName n) (h2 : ∀ n ∈ ns2, goodName n)
    (heq : combinedKey ns1 sz1 = combinedKey ns2 sz2) : ns1 = ns2 ∧ sz1 = sz2 := by
  have hdata := congrArg String.data heq
  rw [combinedKey_data, combinedKey_data] at hdata
  have hgood : ∀ (ns : List String), (∀ n ∈ ns, goodName n) →
      ∀ x ∈ ns.map String.data, x ≠ [] ∧ ':' ∉ x := by
    intro ns hg x hx
    rw [List.mem_map] at hx
    obtain ⟨n, hn, hxe⟩ := hx
    obtain ⟨hne, hnc⟩ := hg n hn
    subst hxe
    refine ⟨fun hnil => hne (string_data_inj (by simpa using hnil)), hnc⟩
  have := jcKey_inj (ns1.map String.data) (ns2.map String.data) (natStr sz1) (natStr sz2)
    (hgood ns1 h1) (hgood ns2 h2) (colon_not_mem_natStr sz1) (colon_not_mem_natStr sz2)
    hdata
  refine ⟨?_, natStr_inj _ _ this.2⟩
  have hmapinj : Function.Injective (List.map String.data) :=
    List.map_injective_iff.mpr (fun _ _ h => string_data_inj h)
  exact hmapinj this.1

theorem mem_mapSet (m : IconCache) (k v : String) :
    ∀ p ∈ mapSet m k v, p ∈ m ∨ p = (k, v) := by
  intro p hp
  unfold mapSet at hp
  split at hp
  · rw [List.mem_map] at hp
    obtain ⟨q, hq, hpe⟩ := hp
    by_cases hqk : q.1 == k
    · rw [if_pos hqk] at hpe
      right
      exact hpe.symm
    · rw [if_neg hqk] at hpe
      left
      exact hpe ▸ hq
  · rcases List.mem_append.mp hp with h | h
    · left; exact h
    · right; simpa using h

theorem mapHas_get (m : IconCache) (k : String) (h : mapHas m k = true) :
    ∃ v, mapGet m k = some v ∧ (k, v) ∈ m := by
  unfold mapHas at h
  rw [List.any_eq_true] at h
  obtain ⟨p, hp, hpk⟩ := h
  have hsome : (m.find? (fun p => p.1 == k)).isSome := by
    rw [List.find?_isSome]
    exact ⟨p, hp, hpk⟩
  obtain ⟨q, hq⟩ := Option.isSome_iff_exists.mp hsome
  have hqmem := List.mem_of_find?_eq_some hq
  have hqk : q.1 = k := by
    have := List.find?_some hq
    simpa using this
  refine ⟨q.2, ?_, ?_⟩
  · unfold mapGet
    rw [hq]
    simp
  · rw [← hqk]
    exact hqmem

theorem mapGet_set_absent (m : IconCache) (k v : String) (h : mapHas m k = false) :
    mapGet (mapSet m k v) k = some v := by
  unfold mapHas at h
  unfold mapSet
  rw [if_neg (by rw [h]; simp)]
  unfold mapGet
  rw [List.find?_append]
  have hnone : m.find? (fun p => p.1 == k) = none := by
    rw [List.find?_eq_none]
    intro p hp
    have := List.any_eq_false.mp h p hp
    simpa using this
  rw [hnone]
  simp

theorem reach_cacheOK (c : IconCache) (h : ReachC c) : cacheOK c := by
  induction h with
  | nil => intro kv hkv; exact absurd hkv (List.not_mem_nil kv)
  | step ns sz c _ hg ih =>
    intro kv hkv
    unfold getCombinedIconUri at hkv
    simp only at hkv
    split at hkv
    · exact ih kv hkv
    · rcases mem_mapSet _ _ _ kv hkv with h | h
      · exact ih kv h
      · subst h
        exact ⟨ns, sz, hg, rfl, rfl⟩

/-- C5 counterexample: the keys of `["a:b"]` and `["a", "b"]` at size 5
coincide, so after caching the one-icon composite for `["a:b"]` the call for
`["a", "b"]` returns it instead of its own two-icon rendering. -/
theorem getCombinedIconUri_collision_counterexample :
    combinedKey ["a:b"] 5 = combinedKey ["a", "b"] 5 ∧
    (getCombinedIconUri ["a", "b"] 5 ((getCombinedIconUri ["a:b"] 5 []).2)).1 ≠
      svgToDataUri (generateCombinedIdenticon ["a", "b"] 5) := by
  refine ⟨by decide, by decide⟩

/-- C5 as amended.  Provided every type name is non-empty and contains no
`':'`, every call (first or repeated, from any cache state reachable by such
calls) returns exactly the data URI of `generateCombinedIdenticon` for its
ordered name sequence and size — so equal arguments always yield the
identical string — and distinct specs never share a cache key.  (Without
the proviso the claim fails: `["a:b"]` and `["a","b"]` share a key, as do
`[]` and `[""]`.) -/
theorem getCombinedIconUri_cache_correct (cache : IconCache) (hc : ReachC cache)
    (ns : List String) (sz : Nat) (hg : ∀ n ∈ ns, goodName n) :
    (getCombinedIconUri ns sz cache).1 =
      svgToDataUri (generateCombinedIdenticon ns sz) ∧
    (∀ ns' sz', (∀ n ∈ ns', goodName n) → ¬(ns = ns' ∧ sz = sz') →
      combinedKey ns sz ≠ combinedKey ns' sz') := by
  constructor
  · unfold getCombinedIconUri
    simp only
    split
    · next hhas =>
      obtain ⟨v, hget, hmem⟩ := mapHas_get cache (combinedKey ns sz) hhas
      have hok := reach_cacheOK cache hc _ hmem
      obtain ⟨ns', sz', hg', hkey, hval⟩ := hok
      simp only at hkey hval
      obtain ⟨hns, hsz⟩ := combinedKey_inj ns' ns sz' sz hg' hg hkey.symm
      rw [hget]
      simp only [Option.getD_some]
      rw [hval, hns, hsz]
    · next hhas =>
      rw [mapGet_set_absent cache _ _ (by simpa using hhas)]
      simp
  · intro ns' sz' hg' hne heq
    exact hne ⟨(combinedKey_inj ns ns' sz sz' hg hg' heq).1,
      (combinedKey_inj ns ns' sz sz' hg hg' heq).2⟩

/-- Witness for C5 as amended: the first call on the empty cache for
`["Foo"]` at size 14. -/
theorem getCombinedIconUri_cache_correct_witness :
    (∀ n ∈ ["Foo"], goodName n) ∧
    (getCombinedIconUri ["Foo"] 14 []).1 =
      svgToDataUri (generateCombinedIdenticon ["Foo"] 14) :=
  ⟨by decide, (getCombinedIconUri_cache_correct [] ReachC.nil ["Foo"] 14 (by decide)).1⟩

/-! ## C7: deduplication of the collection pass -/

theorem posKeyS_data (p : Pos) :
    (posKeyS p).data = natStr p.line ++ ':' :: natStr p.col := by
  unfold posKeyS
  rw [String.data_append, String.data_append, show (":".data) = [':'] by decide,
    show (natS p.line).data = natStr p.line from rfl,
    show (natS p.col).data = natStr p.col from rfl]
  simp

theorem posKeyS_inj : Function.Injective posKeyS := by
  intro p q h
  have hdata := congrArg String.data h
  rw [posKeyS_data, posKeyS_data] at hdata
  have := colon_split _ _ _ _ (colon_not_mem_natStr p.line) (colon_not_mem_natStr q.line)
    hdata
  cases p
  cases q
  simp only [Pos.mk.injEq]
  exact ⟨natStr_inj _ _ this.1, natStr_inj _ _ this.2⟩

theorem contains_key_iff (l : List String) (k : String) :
    l.contains k = true ↔ k ∈ l := by
  simp [List.contains_iff_exists_mem_beq, eq_comm]

theorem guardedAdd_stOK (st : ScanSt) (rng : Rng) (t : String) (h : stOK st) :
    stOK (guardedAdd st rng t) := by
  unfold guardedAdd
  dsimp only
  split
  · exact h
  · next hcon =>
    have hkey : posKeyS rng.start ∉ st.existing := by
      rw [← contains_key_iff]
      simpa using hcon
    constructor
    · rw [List.map_append]
      simp only [List.map_cons, List.map_nil]
      rw [List.nodup_append]
      refine ⟨h.1, List.nodup_singleton _, ?_⟩
      intro k hk hk2
      rw [List.mem_singleton] at hk2
      subst hk2
      rw [List.mem_map] at hk
      obtain ⟨r, hr, hre⟩ := hk
      exact hkey (hre ▸ h.2 r hr)
    · intro r hr
      rcases List.mem_append.mp hr with hmem | hmem
      · exact List.mem_append_left _ (h.2 r hmem)
      · rw [List.mem_singleton] at hmem
        subst hmem
        exact List.mem_append_right _ (List.mem_singleton_self _)

theorem goQueryAdd_stOK (hov : HoverFn) (st : ScanSt) (p : Pos) (n : Nat)
    (h : stOK st) : stOK (goQueryAdd hov st p n) := by
  unfold goQueryAdd
  split
  · exact h
  · split
    · exact guardedAdd_stOK _ _ _ h
    · exact h

theorem foldl_stOK {α : Type} (f : ScanSt → α → ScanSt)
    (hf : ∀ st a, stOK st → stOK (f st a)) :
    ∀ (l : List α) (st : ScanSt), stOK st → stOK (l.foldl f st) := by
  intro l
  induction l with
  | nil => intro st h; exact h
  | cons a rest ih => intro st h; exact ih _ (hf st a h)

theorem foldl_stOK_snd {α β : Type} (f : β × ScanSt → α → β × ScanSt)
    (hf : ∀ s a, stOK s.2 → stOK (f s a).2) :
    ∀ (l : List α) (s : β × ScanSt), stOK s.2 → stOK ((l.foldl f s).2) := by
  intro l
  induction l with
  | nil => intro s h; exact h
  | cons a rest ih => intro s h; exact ih _ (hf s a h)

theorem goFuncParamsPhase_stOK (doc : Doc) (hov : HoverFn) (text : List Char)
    (st : ScanSt) (h : stOK st) : stOK (goFuncParamsPhase doc hov text st) := by
  unfold goFuncParamsPhase
  refine foldl_stOK _ ?_ _ _ h
  intro st m hst
  dsimp only
  split
  · exact hst
  · refine foldl_stOK _ ?_ _ _ hst
    intro st' param hst'
    dsimp only
    split
    · exact hst'
    · split
      · exact guardedAdd_stOK _ _ _ hst'
      · exact hst'

theorem goShortVarLine_stOK (hov : HoverFn) (st : ScanSt) (lineNum : Nat)
    (line : List Char) (h : stOK st) : stOK (goShortVarLine hov st lineNum line) := by
  unfold goShortVarLine
  split
  · refine goQueryAdd_stOK _ _ _ _ ?_
    split
    · exact goQueryAdd_stOK _ _ _ _ h
    · exact h
  · refine foldl_stOK _ ?_ _ _ h
    intro st' m hst'
    refine foldl_stOK_snd _ ?_ _ _ hst'
    intro s varPart hs
    dsimp only
    split
    · exact hs
    · exact goQueryAdd_stOK _ _ _ _ hs

theorem goShortVarPhase_stOK (hov : HoverFn) (text : List Char) (st : ScanSt)
    (h : stOK st) : stOK (goShortVarPhase hov text st) := by
  unfold goShortVarPhase
  refine foldl_stOK _ ?_ _ _ h
  intro st' p hst'
  exact goShortVarLine_stOK _ _ _ _ hst'

theorem goVarPhase_stOK (doc : Doc) (hov : HoverFn) (text : List Char) (st : ScanSt)
    (h : stOK st) : stOK (goVarPhase doc hov text st) := by
  unfold goVarPhase
  refine foldl_stOK _ ?_ _ _ h
  intro st' m hst'
  exact goQueryAdd_stOK _ _ _ _ hst'

theorem stOK_init (results : List Obs)
    (h : (results.map (fun r => posKeyS r.1.start)).Nodup) :
    stOK ⟨results, results.map (fun r => posKeyS r.1.start)⟩ :=
  ⟨h, fun _ hr => List.mem_map_of_mem _ hr⟩

theorem collectGoAdditionalTypes_nodup (doc : Doc) (hov : HoverFn) (fl : Flags)
    (results : List Obs) (h : (results.map (fun r => posKeyS r.1.start)).Nodup) :
    ((collectGoAdditionalTypes doc hov fl results).map
      (fun r => posKeyS r.1.start)).Nodup := by
  unfold collectGoAdditionalTypes
  have h0 := stOK_init results h
  have h1 : ∀ st : ScanSt, stOK st →
      stOK (if fl.showOnParameters then goFuncParamsPhase doc hov (docText doc) st
        else st) := by
    intro st hst
    split
    · exact goFuncParamsPhase_stOK _ _ _ _ hst
    · exact hst
  have h2 : ∀ st : ScanSt, stOK st →
      stOK (if fl.showOnDeclaration then goShortVarPhase hov (docText doc) st else st) := by
    intro st hst
    split
    · exact goShortVarPhase_stOK _ _ _ hst
    · exact hst
  have h3 : ∀ st : ScanSt, stOK st →
      stOK (if fl.showOnDeclaration then goVarPhase doc hov (docText doc) st else st) := by
    intro st hst
    split
    · exact goVarPhase_stOK _ _ _ _ hst
    · exact hst
  exact (h3 _ (h2 _ (h1 _ h0))).1

theorem collectVariableUsages_nodup (hil : HighlightFn) (results : List Obs)
    (h : (results.map (fun r => posKeyS r.1.start)).Nodup) :
    ((collectVariableUsages hil results).map (fun r => posKeyS r.1.start)).Nodup := by
  unfold collectVariableUsages
  have h0 := stOK_init results h
  refine (foldl_stOK _ ?_ _ _ h0).1
  intro st kv hst
  refine foldl_stOK _ ?_ _ _ hst
  intro st' highlight hst'
  exact guardedAdd_stOK _ _ _ hst'

theorem walk_map_sublist (g : DocSym → Option String) :
    ∀ l : List DocSym,
      ((l.filterMap (fun s => (g s).map (fun t => ((⟨s.selStart, s.selStop⟩ : Rng), t)))).map
        (fun r => r.1.start)).Sublist (l.map DocSym.selStart) := by
  intro l
  induction l with
  | nil => simp
  | cons s rest ih =>
    rw [List.filterMap_cons]
    cases g s with
    | none => exact ih.cons _
    | some t =>
      simp only [Option.map_some, List.map_cons]
      exact ih.cons₂ _

/-- C7 counterexample: with parameter collection on, the position of the
parameter `x` of `function foo(x: Number)` receives one observation from
`collectMethodParametersViaHover` (which runs against an empty result set)
and a second from the symbol walk, which appends without deduplication. -/
theorem collectSymbolTypes_duplicate_counterexample :
    ¬ ((collectSymbolTypes ⟨["function foo(x: Number) \x7b"]⟩ "typescript"
        (fun p => if p = ⟨0, 13⟩ then ["(parameter) x: Number"] else [])
        (fun _ => []) ⟨true, true, true, true, false⟩
        [DocSym.mk "foo" .meth ⟨0, 9⟩ ⟨0, 12⟩
          [DocSym.mk "x" .var ⟨0, 13⟩ ⟨0, 14⟩ []]]).map
        (fun r => r.1.start)).Nodup := by
  decide

/-- C7 as amended.  When parameter recovery is disabled and the symbol
walk's target symbols have pairwise distinct start positions, one collection
pass yields at most one observation per (line, column): the Go structural
scan and the highlight-based usage expansion always deduplicate against
everything already collected.  (With parameter recovery enabled the
guarantee fails, because `collectMethodParametersViaHover` runs before the
symbol walk's observations exist and the walk then appends unchecked.) -/
theorem collectSymbolTypes_dedup (doc : Doc) (lang : String) (hov : HoverFn)
    (hil : HighlightFn) (fl : Flags) (symbols : List DocSym)
    (hp : fl.showOnParameters = false)
    (hd : ((collectTargetSyms (targetKindsOf fl) symbols).map DocSym.selStart).Nodup) :
    ((collectSymbolTypes doc lang hov hil fl symbols).map
      (fun r => r.1.start)).Nodup := by
  unfold collectSymbolTypes
  rw [hp]
  simp only [Bool.false_eq_true, if_false, List.nil_append]
  set walkResults := (collectTargetSyms (targetKindsOf fl) symbols).filterMap
    (fun s => (getTypeFromHover lang hov s.selStart).map
      (fun t => ((⟨s.selStart, s.selStop⟩ : Rng), t))) with hwalk
  have hwn : (walkResults.map (fun r => r.1.start)).Nodup :=
    (walk_map_sublist _ _).nodup hd
  have keyProp : ∀ results : List Obs, (results.map (fun r => r.1.start)).Nodup →
      (results.map (fun r => posKeyS r.1.start)).Nodup := by
    intro results hres
    have : results.map (fun r => posKeyS r.1.start) =
        (results.map (fun r => r.1.start)).map posKeyS := by
      rw [List.map_map]
      rfl
    rw [this]
    exact hres.map posKeyS_inj
  have posProp : ∀ results : List Obs,
      (results.map (fun r => posKeyS r.1.start)).Nodup →
      (results.map (fun r => r.1.start)).Nodup := by
    intro results hres
    have : results.map (fun r => posKeyS r.1.start) =
        (results.map (fun r => r.1.start)).map posKeyS := by
      rw [List.map_map]
      rfl
    rw [this] at hres
    exact List.Nodup.of_map _ hres
  apply posProp
  have hgo : ((if lang == "go" then collectGoAdditionalTypes doc hov fl walkResults
      else walkResults).map (fun r => posKeyS r.1.start)).Nodup := by
    split
    · exact collectGoAdditionalTypes_nodup doc hov fl walkResults (keyProp _ hwn)
    · exact keyProp _ hwn
  split
  · exact collectVariableUsages_nodup hil _ hgo
  · exact hgo

/-- Witness for C7 as amended: a Go pass (declarations, usage expansion and
the structural scan active, parameter recovery off) over one variable
symbol. -/
theorem collectSymbolTypes_dedup_witness :
    ((collectSymbolTypes ⟨["var count int"]⟩ "go"
      (fun p => if p = ⟨0, 4⟩ then ["var count int"] else [])
      (fun p => if p = ⟨0, 4⟩ then [⟨⟨0, 4⟩, ⟨0, 9⟩⟩, ⟨⟨0, 12⟩, ⟨0, 13⟩⟩] else [])
      ⟨true, true, true, false, true⟩
      [DocSym.mk "count" .var ⟨0, 4⟩ ⟨0, 9⟩ []]).map (fun r => r.1.start)).Nodup :=
  collectSymbolTypes_dedup _ _ _ _ _ _ rfl (by decide)

/-! ## C2 and C10: the two copies of `extractTypeFromHoverText`

The consumption lemma bounds every engine result between its start position and
a slice of `P`-characters; the capture lemma pushes a predicate on the atoms
inside group 1 to every recorded capture; the head lemmas compute the committed
match of the generic/bracket strip patterns on line-terminator-free input. -/

theorem sliceSat_refl (s : List Char) (P : Char → Prop) (a b : Nat) (h : b ≤ a) :
    sliceSat s P a b := by
  intro ch hch
  simp [listSlice, Nat.sub_eq_zero_of_le h] at hch

theorem sliceSat_glue (s : List Char) (P : Char → Prop) (a b c : Nat)
    (hab : a ≤ b) (hbc : b ≤ c)
    (h1 : sliceSat s P a b) (h2 : sliceSat s P b c) : sliceSat s P a c := by
  intro ch hch
  unfold listSlice at hch
  rw [show c - a = (b - a) + (c - b) by omega, List.take_add] at hch
  rcases List.mem_append.1 hch with h | h
  · exact h1 ch h
  · rw [List.drop_drop, show a + (b - a) = b by omega] at h
    exact h2 ch h

theorem listSlice_single (s : List Char) (a : Nat) (ch0 : Char)
    (h : s.get? a = some ch0) : listSlice s a (a + 1) = [ch0] := by
  unfold listSlice
  rw [show a + 1 - a = 1 by omega]
  have h0 : (s.drop a).get? 0 = some ch0 := by
    rw [List.get?_eq_getElem?, List.getElem?_drop]
    simpa [List.get?_eq_getElem?] using h
  cases hd : s.drop a with
  | nil => rw [hd] at h0; cases h0
  | cons x t =>
    rw [hd] at h0
    simp at h0
    simp [h0]

theorem starLoop_ne_nil (body : Nat → Caps → List (Nat × Caps)) (lzy : Bool) :
    ∀ fuel pos caps, starLoop body lzy fuel pos caps ≠ [] := by
  intro fuel pos caps
  cases fuel with
  | zero => simp [starLoop]
  | succ n =>
    simp only [starLoop]
    cases lzy <;> simp

theorem starLoop_mem_cases (body : Nat → Caps → List (Nat × Caps)) (lzy : Bool)
    (n pos : Nat) (caps : Caps) (p : Nat) (c : Caps)
    (hm : (p, c) ∈ starLoop body lzy (n + 1) pos caps) :
    (p, c) = (pos, caps) ∨
      (p, c) ∈ ((body pos caps).filter (fun pc => pos < pc.1)).flatMap
        (fun pc => starLoop body lzy n pc.1 pc.2) := by
  simp only [starLoop] at hm
  cases lzy with
  | true =>
    rw [if_pos rfl] at hm
    exact List.mem_cons.1 hm
  | false =>
    rw [if_neg Bool.false_ne_true] at hm
    rcases List.mem_append.1 hm with h | h
    · exact Or.inr h
    · exact Or.inl (by simpa using h)

theorem starLoop_consume (s : List Char) (P : Char → Prop)
    (body : Nat → Caps → List (Nat × Caps)) (lzy : Bool)
    (hb : ∀ pos caps p c, (p, c) ∈ body pos caps → pos ≤ p ∧ sliceSat s P pos p) :
    ∀ fuel pos caps p c, (p, c) ∈ starLoop body lzy fuel pos caps →
      pos ≤ p ∧ sliceSat s P pos p := by
  intro fuel
  induction fuel with
  | zero =>
    intro pos caps p c hm
    simp [starLoop] at hm
    obtain ⟨h1, _⟩ := hm
    subst h1
    exact ⟨le_refl _, sliceSat_refl s P p p (le_refl _)⟩
  | succ n ih =>
    intro pos caps p c hm
    rcases starLoop_mem_cases body lzy n pos caps p c hm with h | h
    · rw [Prod.mk.injEq] at h
      obtain ⟨h1, _⟩ := h
      subst h1
      exact ⟨le_refl _, sliceSat_refl s P p p (le_refl _)⟩
    · rw [List.mem_flatMap] at h
      obtain ⟨pc, hpc, hrec⟩ := h
      have hpc' := List.mem_filter.1 hpc
      have hb1 := hb pos caps pc.1 pc.2 hpc'.1
      have hrec' := ih pc.1 pc.2 p c hrec
      exact ⟨le_trans hb1.1 hrec'.1,
        sliceSat_glue s P pos pc.1 p hb1.1 hrec'.1 hb1.2 hrec'.2⟩

theorem starLoop_caps (s : List Char) (P : Char → Prop)
    (body : Nat → Caps → List (Nat × Caps)) (lzy : Bool)
    (hb : ∀ pos caps p c, (p, c) ∈ body pos caps → capsSat s P caps → capsSat s P c) :
    ∀ fuel pos caps p c, (p, c) ∈ starLoop body lzy fuel pos caps →
      capsSat s P caps → capsSat s P c := by
  intro fuel
  induction fuel with
  | zero =>
    intro pos caps p c hm hc
    simp [starLoop] at hm
    obtain ⟨_, h2⟩ := hm
    subst h2
    exact hc
  | succ n ih =>
    intro pos caps p c hm hc
    rcases starLoop_mem_cases body lzy n pos caps p c hm with h | h
    · rw [Prod.mk.injEq] at h
      obtain ⟨_, h2⟩ := h
      subst h2
      exact hc
    · rw [List.mem_flatMap] at h
      obtain ⟨pc, hpc, hrec⟩ := h
      have hpc' := List.mem_filter.1 hpc
      exact ih pc.1 pc.2 p c hrec (hb pos caps pc.1 pc.2 hpc'.1 hc)

theorem mall_consume (s : List Char) (mult : Bool) (P : Char → Prop) :
    ∀ re, atomsSat P re → ∀ pos caps p c, (p, c) ∈ mall s mult re pos caps →
      pos ≤ p ∧ sliceSat s P pos p := by
  intro re
  induction re with
  | eps =>
    intro _ pos caps p c hm
    simp [mall] at hm
    obtain ⟨h1, _⟩ := hm
    subst h1
    exact ⟨le_refl _, sliceSat_refl s P p p (le_refl _)⟩
  | lit c0 =>
    intro ha pos caps p c hm
    simp only [mall] at hm
    cases hg : s.get? pos with
    | none => rw [hg] at hm; simp at hm
    | some ch =>
      rw [hg] at hm
      dsimp only at hm
      cases hb : (ch == c0) with
      | false => rw [hb] at hm; simp at hm
      | true =>
        rw [hb] at hm
        simp at hm
        obtain ⟨h1, _⟩ := hm
        subst h1
        refine ⟨by omega, ?_⟩
        intro ch' hch'
        rw [listSlice_single s pos ch hg] at hch'
        simp at hch'
        rw [hch']
        have hc0 : ch = c0 := by simpa using hb
        rw [hc0]
        exact ha
  | cls neg items =>
    intro ha pos caps p c hm
    simp only [mall] at hm
    cases hg : s.get? pos with
    | none => rw [hg] at hm; simp at hm
    | some ch =>
      rw [hg] at hm
      dsimp only at hm
      cases hb : clsHits neg items ch with
      | false => rw [hb] at hm; simp at hm
      | true =>
        rw [hb] at hm
        simp at hm
        obtain ⟨h1, _⟩ := hm
        subst h1
        refine ⟨by omega, ?_⟩
        intro ch' hch'
        rw [listSlice_single s pos ch hg] at hch'
        simp at hch'
        rw [hch']
        exact ha ch hb
  | dot =>
    intro ha pos caps p c hm
    simp only [mall] at hm
    cases hg : s.get? pos with
    | none => rw [hg] at hm; simp at hm
    | some ch =>
      rw [hg] at hm
      dsimp only at hm
      cases hb : isLineTermCh ch with
      | true => rw [hb] at hm; simp at hm
      | false =>
        rw [hb] at hm
        simp at hm
        obtain ⟨h1, _⟩ := hm
        subst h1
        refine ⟨by omega, ?_⟩
        intro ch' hch'
        rw [listSlice_single s pos ch hg] at hch'
        simp at hch'
        rw [hch']
        exact ha ch hb
  | bol =>
    intro _ pos caps p c hm
    have hpc : p = pos := by
      simp only [mall] at hm
      repeat' split at hm
      all_goals simp at hm
      all_goals tauto
    subst hpc
    exact ⟨le_refl _, sliceSat_refl s P p p (le_refl _)⟩
  | eol =>
    intro _ pos caps p c hm
    have hpc : p = pos := by
      simp only [mall] at hm
      repeat' split at hm
      all_goals simp at hm
      all_goals tauto
    subst hpc
    exact ⟨le_refl _, sliceSat_refl s P p p (le_refl _)⟩
  | wordb =>
    intro _ pos caps p c hm
    have hpc : p = pos := by
      simp only [mall] at hm
      repeat' split at hm
      all_goals simp at hm
      all_goals tauto
    subst hpc
    exact ⟨le_refl _, sliceSat_refl s P p p (le_refl _)⟩
  | cat r t ihr iht =>
    intro ha pos caps p c hm
    simp only [mall] at hm
    rw [List.mem_flatMap] at hm
    obtain ⟨pc, hpc, hm2⟩ := hm
    have h1 := ihr ha.1 pos caps pc.1 pc.2 hpc
    have h2 := iht ha.2 pc.1 pc.2 p c hm2
    exact ⟨le_trans h1.1 h2.1, sliceSat_glue s P pos pc.1 p h1.1 h2.1 h1.2 h2.2⟩
  | alt r t ihr iht =>
    intro ha pos caps p c hm
    simp only [mall] at hm
    rcases List.mem_append.1 hm with h | h
    · exact ihr ha.1 pos caps p c h
    · exact iht ha.2 pos caps p c h
  | star lzy r ihr =>
    intro ha pos caps p c hm
    rw [show mall s mult (.star lzy r) pos caps =
      starLoop (fun p c => mall s mult r p c) lzy (s.length + 1) pos caps from rfl] at hm
    exact starLoop_consume s P _ lzy
      (fun pos' caps' p' c' hm' => ihr ha pos' caps' p' c' hm')
      (s.length + 1) pos caps p c hm
  | grp i r ihr =>
    intro ha pos caps p c hm
    simp only [mall] at hm
    rw [List.mem_map] at hm
    obtain ⟨pc, hpc, heq⟩ := hm
    rw [Prod.mk.injEq] at heq
    obtain ⟨h2, _⟩ := heq
    rw [← h2]
    exact ihr ha pos caps pc.1 pc.2 hpc

theorem mall_caps (s : List Char) (mult : Bool) (P : Char → Prop) :
    ∀ re, grp1Sat P re → ∀ pos caps p c, (p, c) ∈ mall s mult re pos caps →
      capsSat s P caps → capsSat s P c := by
  intro re
  induction re with
  | eps =>
    intro _ pos caps p c hm hc
    have hcc : c = caps := by
      simp [mall] at hm
      tauto
    subst hcc; exact hc
  | lit c0 =>
    intro _ pos caps p c hm hc
    have hcc : c = caps := by
      simp only [mall] at hm
      repeat' split at hm
      all_goals simp at hm
      all_goals tauto
    subst hcc; exact hc
  | cls neg items =>
    intro _ pos caps p c hm hc
    have hcc : c = caps := by
      simp only [mall] at hm
      repeat' split at hm
      all_goals simp at hm
      all_goals tauto
    subst hcc; exact hc
  | dot =>
    intro _ pos caps p c hm hc
    have hcc : c = caps := by
      simp only [mall] at hm
      repeat' split at hm
      all_goals simp at hm
      all_goals tauto
    subst hcc; exact hc
  | bol =>
    intro _ pos caps p c hm hc
    have hcc : c = caps := by
      simp only [mall] at hm
      repeat' split at hm
      all_goals simp at hm
      all_goals tauto
    subst hcc; exact hc
  | eol =>
    intro _ pos caps p c hm hc
    have hcc : c = caps := by
      simp only [mall] at hm
      repeat' split at hm
      all_goals simp at hm
      all_goals tauto
    subst hcc; exact hc
  | wordb =>
    intro _ pos caps p c hm hc
    have hcc : c = caps := by
      simp only [mall] at hm
      repeat' split at hm
      all_goals simp at hm
      all_goals tauto
    subst hcc; exact hc
  | cat r t ihr iht =>
    intro hg pos caps p c hm hc
    simp only [mall] at hm
    rw [List.mem_flatMap] at hm
    obtain ⟨pc, hpc, hm2⟩ := hm
    exact iht hg.2 pc.1 pc.2 p c hm2 (ihr hg.1 pos caps pc.1 pc.2 hpc hc)
  | alt r t ihr iht =>
    intro hg pos caps p c hm hc
    simp only [mall] at hm
    rcases List.mem_append.1 hm with h | h
    · exact ihr hg.1 pos caps p c h hc
    · exact iht hg.2 pos caps p c h hc
  | star lzy r ihr =>
    intro hg pos caps p c hm hc
    rw [show mall s mult (.star lzy r) pos caps =
      starLoop (fun p c => mall s mult r p c) lzy (s.length + 1) pos caps from rfl] at hm
    exact starLoop_caps s P _ lzy
      (fun pos' caps' p' c' hm' hc' => ihr hg pos' caps' p' c' hm' hc')
      (s.length + 1) pos caps p c hm hc
  | grp i r ihr =>
    intro hg pos caps p c hm hc
    simp only [mall] at hm
    rw [List.mem_map] at hm
    obtain ⟨pc, hpc, heq⟩ := hm
    rw [Prod.mk.injEq] at heq
    obtain ⟨_, h2⟩ := heq
    subst h2
    intro a b hlk
    simp only [capLookup] at hlk
    by_cases hi : i = 1
    · rw [show (i == 1) = true by simpa using hi] at hlk
      simp at hlk
      obtain ⟨ha, hb⟩ := hlk
      subst ha; subst hb
      exact (mall_consume s mult P r (hg.1 hi) pos caps pc.1 pc.2 hpc).2
    · rw [show (i == 1) = false by simpa using hi] at hlk
      simp at hlk
      exact ihr hg.2 pos caps pc.1 pc.2 hpc hc a b hlk

theorem head?_mem {α : Type} (l : List α) (a : α) (h : l.head? = some a) : a ∈ l := by
  cases l with
  | nil => cases h
  | cons x t =>
    simp at h
    rw [← h]
    exact List.mem_cons_self x t

theorem findFrom_mem (s : List Char) (mult : Bool) (re : Re) :
    ∀ tries start m, findFrom s mult re start tries = some m →
      (m.stop, m.caps) ∈ mall s mult re m.first [] := by
  intro tries
  induction tries with
  | zero => intro start m h; simp [findFrom] at h
  | succ n ih =>
    intro start m h
    simp only [findFrom] at h
    cases hh : (mall s mult re start []).head? with
    | some pc =>
      rw [hh] at h
      simp at h
      rw [← h]
      exact head?_mem _ _ hh
    | none =>
      rw [hh] at h
      exact ih (start + 1) m h

theorem capsSat_nil (s : List Char) (P : Char → Prop) : capsSat s P [] := by
  intro a b h
  simp [capLookup] at h

theorem jsMatch_capSat (rx : Rx) (s : List Char) (m : MatchRes) (P : Char → Prop)
    (hg : grp1Sat P rx.re) (hm : jsMatch rx s = some m) (cap : List Char)
    (hc : m.capStr s 1 = some cap) : ∀ ch ∈ cap, P ch := by
  have hmem : (m.stop, m.caps) ∈ mall s rx.mult rx.re m.first [] :=
    findFrom_mem s rx.mult rx.re (s.length + 1) 0 m hm
  have hcs : capsSat s P m.caps :=
    mall_caps s rx.mult P rx.re hg m.first [] m.stop m.caps hmem (capsSat_nil s P)
  unfold MatchRes.capStr at hc
  cases hl : capLookup m.caps 1 with
  | none => rw [hl] at hc; cases hc
  | some ab =>
    rw [hl] at hc
    simp at hc
    intro ch hch
    rw [← hc] at hch
    exact hcs ab.1 ab.2 hl ch hch

theorem canConsume_atomsSat (P : Char → Prop) :
    ∀ re, (∀ ch, canConsume re ch = true → P ch) → atomsSat P re := by
  intro re
  induction re with
  | eps => intro _; trivial
  | lit c0 => intro h; exact h c0 (by simp [canConsume])
  | cls neg items => intro h ch hch; exact h ch (by simpa [canConsume] using hch)
  | dot => intro h ch hch; exact h ch (by simp [canConsume, hch])
  | bol => intro _; trivial
  | eol => intro _; trivial
  | wordb => intro _; trivial
  | cat r t ihr iht =>
    intro h
    exact ⟨ihr (fun ch hc => h ch (by simp [canConsume, hc])),
      iht (fun ch hc => h ch (by simp [canConsume, hc]))⟩
  | alt r t ihr iht =>
    intro h
    exact ⟨ihr (fun ch hc => h ch (by simp [canConsume, hc])),
      iht (fun ch hc => h ch (by simp [canConsume, hc]))⟩
  | star lzy r ihr => intro h; exact ihr (fun ch hc => h ch (by simpa [canConsume] using hc))
  | grp i r ihr => intro h; exact ihr (fun ch hc => h ch (by simpa [canConsume] using hc))

theorem grp1Consume_grp1Sat (P : Char → Prop) :
    ∀ re, (∀ ch, grp1Consume re ch = true → P ch) → grp1Sat P re := by
  intro re
  induction re with
  | eps => intro _; trivial
  | lit c0 => intro _; trivial
  | cls neg items => intro _; trivial
  | dot => intro _; trivial
  | bol => intro _; trivial
  | eol => intro _; trivial
  | wordb => intro _; trivial
  | cat r t ihr iht =>
    intro h
    exact ⟨ihr (fun ch hc => h ch (by simp [grp1Consume, hc])),
      iht (fun ch hc => h ch (by simp [grp1Consume, hc]))⟩
  | alt r t ihr iht =>
    intro h
    exact ⟨ihr (fun ch hc => h ch (by simp [grp1Consume, hc])),
      iht (fun ch hc => h ch (by simp [grp1Consume, hc]))⟩
  | star lzy r ihr => intro h; exact ihr (fun ch hc => h ch (by simpa [grp1Consume] using hc))
  | grp i r ihr =>
    intro h
    refine ⟨fun hi => canConsume_atomsSat P r (fun ch hc => h ch ?_), 
      ihr (fun ch hc => h ch (by simp [grp1Consume, hc]))⟩
    simp [grp1Consume, hi, hc]

theorem char_eq_of_toNat (a b : Char) (h : a.toNat = b.toNat) : a = b := by
  apply Char.eq_of_val_eq
  apply UInt32.eq_of_toBitVec_eq
  apply BitVec.eq_of_toNat_eq
  exact h

theorem lineterm_mem (ch : Char) (h : isLineTermCh ch = true) : ch ∈ lineTermChars := by
  unfold isLineTermCh at h
  simp only [Bool.or_eq_true, beq_iff_eq] at h
  rcases h with ((h | h) | h) | h
  · have : ch = '\n' := char_eq_of_toNat ch '\n' (by rw [h]; decide)
    rw [this]; simp [lineTermChars]
  · have : ch = '\r' := char_eq_of_toNat ch '\r' (by rw [h]; decide)
    rw [this]; simp [lineTermChars]
  · have : ch = Char.ofNat 0x2028 := char_eq_of_toNat ch (Char.ofNat 0x2028) (by rw [h]; decide)
    rw [this]; simp [lineTermChars]
  · have : ch = Char.ofNat 0x2029 := char_eq_of_toNat ch (Char.ofNat 0x2029) (by rw [h]; decide)
    rw [this]; simp [lineTermChars]

theorem grp1_no_lineterm (re : Re) (h : ∀ c ∈ lineTermChars, grp1Consume re c = false) :
    ∀ ch, grp1Consume re ch = true → isLineTermCh ch = false := by
  intro ch hcc
  cases hlt : isLineTermCh ch with
  | false => rfl
  | true =>
    rw [h ch (lineterm_mem ch hlt)] at hcc
    cases hcc

theorem tryRxs_exists (ct : List Char) :
    ∀ l m, tryRxs ct l = some m → ∃ rx, rx ∈ l ∧ jsMatch rx ct = some m := by
  intro l
  induction l with
  | nil => intro m h; cases h
  | cons rx rest ih =>
    intro m h
    simp only [tryRxs] at h
    cases hj : jsMatch rx ct with
    | some m' =>
      rw [hj] at h
      simp at h
      exact ⟨rx, List.mem_cons_self rx rest, by rw [hj, h]⟩
    | none =>
      rw [hj] at h
      obtain ⟨rx', hmem, hj'⟩ := ih m h
      exact ⟨rx', List.mem_cons_of_mem rx hmem, hj'⟩

theorem hoverPats_prop (languageId : String) (ct : List Char) (rx : Rx)
    (h : rx ∈ hoverPats languageId ct) :
    (∀ c ∈ lineTermChars, grp1Consume rx.re c = false) ∨ grp1Consume rx.re '[' = false := by
  unfold hoverPats at h
  split at h
  · simp [List.mem_cons] at h
    rcases h with rfl | rfl | rfl <;> (left; decide)
  · split at h
    · simp [List.mem_cons] at h
      rcases h with rfl; left; decide
    · split at h
      · simp [List.mem_cons] at h
        rcases h with rfl | rfl <;> (left; decide)
      · split at h
        · simp [List.mem_cons] at h
          rcases h with rfl | rfl <;> (left; decide)
        · split at h
          · simp [List.mem_cons] at h
            rcases h with rfl; left; decide
          · split at h
            · simp [List.mem_cons] at h
              rcases h with rfl | rfl <;> (left; decide)
            · split at h
              · simp [List.mem_cons] at h
                rcases h with rfl | rfl <;> (left; decide)
              · split at h
                · split at h
                  · simp [List.mem_cons] at h
                    rcases h with rfl | rfl <;> (right; decide)
                  · simp [List.mem_cons] at h
                    rcases h with rfl; right; decide
                · simp [List.mem_cons] at h
                  rcases h with rfl | rfl <;> (left; decide)

theorem hoverCandidate_shape (text : List Char) (languageId : String) (cap : List Char)
    (h : hoverCandidate text languageId = some cap) :
    ∃ rx m, rx ∈ hoverPats languageId (hoverCodeText text) ∧
      jsMatch rx (hoverCodeText text) = some m ∧
      m.capStr (hoverCodeText text) 1 = some cap := by
  simp only [hoverCandidate] at h
  split at h
  · rename_i m hm
    split at h
    · rename_i cap' hcap
      split at h
      · cases h
      · obtain ⟨rx, hrx, hj⟩ := tryRxs_exists _ _ _ hm
        simp at h
        exact ⟨rx, m, hrx, hj, by rw [hcap, h]⟩
    · cases h
  · cases h

theorem hoverCandidate_dichotomy (text : List Char) (languageId : String) (cap : List Char)
    (h : hoverCandidate text languageId = some cap) :
    (∀ ch ∈ cap, isLineTermCh ch = false) ∨ '[' ∉ cap := by
  obtain ⟨rx, m, hrx, hj, hcap⟩ := hoverCandidate_shape text languageId cap h
  rcases hoverPats_prop languageId _ rx hrx with hL | hR
  · left
    exact jsMatch_capSat rx _ m (fun ch => isLineTermCh ch = false)
      (grp1Consume_grp1Sat _ rx.re (grp1_no_lineterm rx.re hL)) hj cap hcap
  · right
    intro hmem
    have := jsMatch_capSat rx _ m (fun ch => ch ≠ '[')
      (grp1Consume_grp1Sat _ rx.re (fun ch hcc he => by rw [he, hR] at hcc; cases hcc))
      hj cap hcap
    exact this '[' hmem rfl

theorem lt_of_get?_some {α : Type} {l : List α} {i : Nat} {a : α}
    (h : l.get? i = some a) : i < l.length := by
  by_contra hn
  rw [List.get?_eq_none.mpr (by omega)] at h
  cases h

theorem mall_litHead_nil (s : List Char) (mult : Bool) (c : Char) (r : Re)
    (pos : Nat) (caps : Caps) (h : s.get? pos ≠ some c) :
    mall s mult (.cat (.lit c) r) pos caps = [] := by
  simp only [mall]
  cases hg : s.get? pos with
  | none => simp
  | some ch =>
    have hne : (ch == c) = false := by
      simp only [beq_eq_false_iff_ne]
      intro he
      exact h (by rw [hg, he])
    simp [hne]

theorem findFrom_none (s : List Char) (mult : Bool) (re : Re)
    (h : ∀ p, mall s mult re p [] = []) :
    ∀ tries start, findFrom s mult re start tries = none := by
  intro tries
  induction tries with
  | zero => intro start; rfl
  | succ n ih =>
    intro start
    simp only [findFrom]
    rw [h start]
    simp only [List.head?_nil]
    exact ih (start + 1)

theorem findFrom_of_first (s : List Char) (mult : Bool) (re : Re) (i q : Nat) (cs : Caps)
    (hfirst : ∀ p, p < i → mall s mult re p [] = [])
    (hhead : (mall s mult re i []).head? = some (q, cs)) :
    ∀ tries start, start ≤ i → i < start + tries →
      findFrom s mult re start tries = some ⟨i, q, cs⟩ := by
  intro tries
  induction tries with
  | zero => intro start h1 h2; omega
  | succ n ih =>
    intro start h1 h2
    by_cases hs : start = i
    · subst hs
      simp only [findFrom]
      rw [hhead]
    · have hlt : start < i := by omega
      simp only [findFrom]
      rw [hfirst start hlt]
      simp only [List.head?_nil]
      exact ih (start + 1) (by omega) (by omega)

theorem flatMap_head {α β : Type} (l : List α) (f : α → List β) (a : α) (b : β)
    (h1 : l.head? = some a) (h2 : (f a).head? = some b) : (l.flatMap f).head? = some b := by
  cases l with
  | nil => cases h1
  | cons x t =>
    simp at h1
    rw [← h1] at h2
    rw [List.flatMap_cons]
    cases hf : f x with
    | nil => rw [hf] at h2; cases h2
    | cons y u =>
      rw [hf] at h2
      simp at h2
      simp [h2]

theorem starDot_head (s : List Char) (mult : Bool)
    (hs : ∀ ch ∈ s, isLineTermCh ch = false) :
    ∀ fuel pos caps, pos ≤ s.length → s.length ≤ pos + fuel →
      (starLoop (fun p c => mall s mult .dot p c) false fuel pos caps).head? =
        some (s.length, caps) := by
  intro fuel
  induction fuel with
  | zero =>
    intro pos caps h1 h2
    have : pos = s.length := by omega
    subst this
    simp [starLoop]
  | succ n ih =>
    intro pos caps h1 h2
    by_cases hp : pos = s.length
    · subst hp
      have hdot : mall s mult Re.dot s.length caps = [] := by
        simp only [mall]
        rw [List.get?_eq_none.mpr (by omega)]
      simp only [starLoop, if_neg Bool.false_ne_true]
      rw [hdot]
      simp
    · have hlt : pos < s.length := by omega
      have hg : s.get? pos = some (s.get ⟨pos, hlt⟩) := List.get?_eq_get hlt
      have hch : isLineTermCh (s.get ⟨pos, hlt⟩) = false := hs _ (s.get_mem pos hlt)
      have hdot : mall s mult .dot pos caps = [(pos + 1, caps)] := by
        simp only [mall]
        rw [hg]
        dsimp only
        rw [hch]
        simp
      simp only [starLoop, if_neg Bool.false_ne_true]
      rw [hdot]
      have hfilt : List.filter (fun pc => decide (pos < pc.1)) [(pos + 1, caps)] =
          [(pos + 1, caps)] := by
        simp
      rw [hfilt]
      rw [List.flatMap_cons, List.flatMap_nil, List.append_nil]
      have hih := ih (pos + 1) caps (by omega) (by omega)
      cases hsl : starLoop (fun p c => mall s mult .dot p c) false n (pos + 1) caps with
      | nil => exact absurd hsl (starLoop_ne_nil _ _ n (pos + 1) caps)
      | cons x u =>
        rw [hsl] at hih
        simp at hih
        simp [hih]

theorem mall_genShape_head (s : List Char) (mult : Bool) (c : Char) (i : Nat)
    (hs : ∀ ch ∈ s, isLineTermCh ch = false) (hi : s.get? i = some c) :
    (mall s mult (.cat (.lit c) (.star false .dot)) i []).head? = some (s.length, []) := by
  have hlit : mall s mult (.lit c) i [] = [(i + 1, [])] := by
    simp only [mall]
    rw [hi]
    dsimp only
    simp
  rw [show mall s mult (.cat (.lit c) (.star false .dot)) i [] =
    (mall s mult (.lit c) i []).flatMap
      (fun pc => mall s mult (.star false .dot) pc.1 pc.2) from rfl]
  rw [hlit, List.flatMap_cons, List.flatMap_nil, List.append_nil]
  rw [show mall s mult (.star false .dot) (i + 1) [] =
    starLoop (fun p c => mall s mult .dot p c) false (s.length + 1) (i + 1) [] from rfl]
  exact starDot_head s mult hs (s.length + 1) (i + 1) []
    (by have := lt_of_get?_some hi; omega) (by omega)

theorem mall_brShape_head (s : List Char) (mult : Bool) (i : Nat)
    (hs : ∀ ch ∈ s, isLineTermCh ch = false) (hi : s.get? i = some '[') :
    (mall s mult (.cat (.lit '[') (.cat (.star false .dot) .eol)) i []).head? =
      some (s.length, []) := by
  have hlit : mall s mult (.lit '[') i [] = [(i + 1, [])] := by
    simp only [mall]
    rw [hi]
    dsimp only
    simp
  rw [show mall s mult (.cat (.lit '[') (.cat (.star false .dot) .eol)) i [] =
    (mall s mult (.lit '[') i []).flatMap
      (fun pc => mall s mult (.cat (.star false .dot) .eol) pc.1 pc.2) from rfl]
  rw [hlit, List.flatMap_cons, List.flatMap_nil, List.append_nil]
  rw [show mall s mult (.cat (.star false .dot) .eol) (i + 1) [] =
    (mall s mult (.star false .dot) (i + 1) []).flatMap
      (fun pc => mall s mult .eol pc.1 pc.2) from rfl]
  have hstar : (mall s mult (.star false .dot) (i + 1) []).head? = some (s.length, []) := by
    rw [show mall s mult (.star false .dot) (i + 1) [] =
      starLoop (fun p c => mall s mult .dot p c) false (s.length + 1) (i + 1) [] from rfl]
    exact starDot_head s mult hs (s.length + 1) (i + 1) []
      (by have := lt_of_get?_some hi; omega) (by omega)
  refine flatMap_head _ _ (s.length, []) (s.length, []) hstar ?_
  simp only [mall]
  simp

theorem jsMatch_gen (s : List Char) (c : Char) (i : Nat)
    (hs : ∀ ch ∈ s, isLineTermCh ch = false) (hi : s.get? i = some c)
    (hfirst : ∀ j, j < i → s.get? j ≠ some c) :
    jsMatch ⟨.cat (.lit c) (.star false .dot), false⟩ s = some ⟨i, s.length, []⟩ := by
  have hlt : i < s.length := lt_of_get?_some hi
  exact findFrom_of_first s false (.cat (.lit c) (.star false .dot)) i s.length []
    (fun p hp => mall_litHead_nil s false c _ p [] (hfirst p hp))
    (mall_genShape_head s false c i hs hi)
    (s.length + 1) 0 (Nat.zero_le i) (by omega)

theorem jsMatch_br (s : List Char) (i : Nat)
    (hs : ∀ ch ∈ s, isLineTermCh ch = false) (hi : s.get? i = some '[')
    (hfirst : ∀ j, j < i → s.get? j ≠ some '[') :
    jsMatch brRx s = some ⟨i, s.length, []⟩ := by
  have hlt : i < s.length := lt_of_get?_some hi
  exact findFrom_of_first s false (.cat (.lit '[') (.cat (.star false .dot) .eol)) i
    s.length []
    (fun p hp => mall_litHead_nil s false '[' _ p [] (hfirst p hp))
    (mall_brShape_head s false i hs hi)
    (s.length + 1) 0 (Nat.zero_le i) (by omega)

theorem jsMatch_litHead_none (s : List Char) (c : Char) (r : Re) (mult : Bool)
    (h : c ∉ s) : jsMatch ⟨.cat (.lit c) r, mult⟩ s = none := by
  exact findFrom_none s mult _
    (fun p => mall_litHead_nil s mult c r p []
      (fun he => h (List.get?_mem he)))
    (s.length + 1) 0

theorem replaceFirst_lit_id (s : List Char) (c : Char) (r : Re) (mult : Bool)
    (h : c ∉ s) : replaceFirst ⟨.cat (.lit c) r, mult⟩ s = s := by
  unfold replaceFirst
  rw [jsMatch_litHead_none s c r mult h]

theorem firstIdx_exists (s : List Char) (c : Char) (h : c ∈ s) :
    ∃ i, s.get? i = some c ∧ ∀ j, j < i → s.get? j ≠ some c := by
  induction s with
  | nil => cases h
  | cons x t ih =>
    by_cases hx : x = c
    · exact ⟨0, by simp [hx], fun j hj => absurd hj (Nat.not_lt_zero j)⟩
    · have hct : c ∈ t := by
        rcases List.mem_cons.1 h with h1 | h2
        · exact absurd h1.symm hx
        · exact h2
      obtain ⟨i, hi, hf⟩ := ih hct
      refine ⟨i + 1, hi, ?_⟩
      intro j hj
      cases j with
      | zero =>
        intro he
        simp at he
        exact hx he
      | succ k => exact hf k (by omega)

theorem mem_take_idx {α : Type} (l : List α) (n : Nat) (a : α) (h : a ∈ l.take n) :
    ∃ j, j < n ∧ l.get? j = some a := by
  induction l generalizing n with
  | nil => simp at h
  | cons x t ih =>
    cases n with
    | zero => simp at h
    | succ m =>
      rw [List.take_succ_cons] at h
      rcases List.mem_cons.1 h with h1 | h2
      · exact ⟨0, Nat.succ_pos m, by simp [h1]⟩
      · obtain ⟨j, hj, hg⟩ := ih m h2
        exact ⟨j + 1, by omega, hg⟩

theorem replaceFirst_gen_no (s : List Char) (c : Char)
    (hs : ∀ ch ∈ s, isLineTermCh ch = false) :
    c ∉ replaceFirst ⟨.cat (.lit c) (.star false .dot), false⟩ s := by
  by_cases hc : c ∈ s
  · obtain ⟨i, hi, hfirst⟩ := firstIdx_exists s c hc
    unfold replaceFirst
    rw [jsMatch_gen s c i hs hi hfirst]
    show c ∉ s.take i ++ s.drop s.length
    rw [List.drop_length, List.append_nil]
    intro hmem
    obtain ⟨j, hj2, hg⟩ := mem_take_idx s i c hmem
    exact hfirst j hj2 hg
  · rw [replaceFirst_lit_id s c _ false hc]
    exact hc

theorem replaceFirst_br_no (s : List Char)
    (hs : ∀ ch ∈ s, isLineTermCh ch = false) :
    '[' ∉ replaceFirst brRx s := by
  by_cases hc : '[' ∈ s
  · obtain ⟨i, hi, hfirst⟩ := firstIdx_exists s '[' hc
    unfold replaceFirst
    rw [jsMatch_br s i hs hi hfirst]
    show '[' ∉ s.take i ++ s.drop s.length
    rw [List.drop_length, List.append_nil]
    intro hmem
    obtain ⟨j, hj2, hg⟩ := mem_take_idx s i '[' hmem
    exact hfirst j hj2 hg
  · rw [show replaceFirst brRx s = s from replaceFirst_lit_id s '[' _ false hc]
    exact hc

theorem replaceFirst_br_eq (s : List Char)
    (hs : ∀ ch ∈ s, isLineTermCh ch = false) :
    replaceFirst brRx s = replaceFirst brRxEarly s := by
  by_cases hc : '[' ∈ s
  · obtain ⟨i, hi, hfirst⟩ := firstIdx_exists s '[' hc
    unfold replaceFirst
    rw [jsMatch_br s i hs hi hfirst,
      show jsMatch brRxEarly s = some ⟨i, s.length, []⟩ from
        jsMatch_gen s '[' i hs hi hfirst]
  · rw [show replaceFirst brRx s = s from replaceFirst_lit_id s '[' _ false hc,
      show replaceFirst brRxEarly s = s from replaceFirst_lit_id s '[' _ false hc]

theorem mem_replaceFirst (rx : Rx) (s : List Char) (ch : Char)
    (h : ch ∈ replaceFirst rx s) : ch ∈ s := by
  unfold replaceFirst at h
  split at h
  · rcases List.mem_append.1 h with h1 | h1
    · exact List.take_subset _ _ h1
    · exact List.drop_subset _ _ h1
  · exact h

theorem mem_jsTrim (s : List Char) (ch : Char) (h : ch ∈ jsTrim s) : ch ∈ s := by
  unfold jsTrim at h
  rw [List.mem_reverse] at h
  have h1 := (List.dropWhile_sublist _).subset h
  rw [List.mem_reverse] at h1
  exact (List.dropWhile_sublist _).subset h1

theorem splitSeqF_chars (sep : List Char) :
    ∀ fuel s part, part ∈ splitSeqF sep fuel s → ∀ ch ∈ part, ch ∈ s := by
  intro fuel
  induction fuel with
  | zero =>
    intro s part h ch hch
    simp [splitSeqF] at h
    rw [h] at hch
    exact hch
  | succ n ih =>
    intro s part h ch hch
    simp only [splitSeqF] at h
    cases hidx : idxOfSeq sep s with
    | none =>
      rw [hidx] at h
      simp at h
      rw [h] at hch
      exact hch
    | some idx =>
      rw [hidx] at h
      rcases List.mem_cons.1 h with h1 | h2
      · rw [h1] at hch
        exact List.take_subset _ _ hch
      · exact List.drop_subset _ _ (ih _ part h2 ch hch)

theorem getLastD_mem_or {α : Type} :
    ∀ (l : List α) (d : α), l.getLastD d = d ∨ l.getLastD d ∈ l := by
  intro l
  induction l with
  | nil => intro d; left; rfl
  | cons a t ih =>
    intro d
    rw [List.getLastD_cons]
    rcases ih a with h | h
    · right; rw [h]; exact List.mem_cons_self a t
    · right; exact List.mem_cons_of_mem a h

theorem not_mem_of_contains_false {α : Type} [BEq α] [LawfulBEq α] {l : List α} {a : α}
    (h : l.contains a = false) : a ∉ l := by
  intro hm
  rw [show l.contains a = l.elem a from rfl, List.elem_iff.mpr hm] at h
  cases h

theorem splitSeq_chars (sep s part : List Char) (h : part ∈ splitSeq sep s) :
    ∀ ch ∈ part, ch ∈ s := splitSeqF_chars sep (s.length + 1) s part h

theorem mem_getLastD_nilD {α : Type} (l : List (List α)) (ch : α)
    (h : ch ∈ l.getLastD []) : ∃ part ∈ l, ch ∈ part := by
  rcases getLastD_mem_or l [] with hd | hd
  · rw [hd] at h; cases h
  · exact ⟨_, hd, h⟩

theorem normalizeFinish_shape (v l : List Char) (h : normalizeFinish v = some l) :
    l ≠ [] ∧ kwList.contains (toLowerAscii l) = false ∧ ∀ ch ∈ l, ch ∈ v := by
  simp only [normalizeFinish] at h
  split at h
  · cases h
  · split at h
    · cases h
    · rename_i hkw hemp
      have h' := Option.some.inj h
      subst h'
      refine ⟨?_, ?_, ?_⟩
      · intro hnil
        rw [hnil] at hemp
        exact hemp rfl
      · simpa using hkw
      · intro ch hch
        obtain ⟨part, hpart, hchp⟩ := mem_getLastD_nilD _ ch hch
        have h1 := splitSeq_chars _ _ part hpart ch hchp
        exact mem_replaceFirst ptrRx v ch (mem_jsTrim _ ch h1)

theorem normalize_shape (cap l : List Char) (h : normalize cap = some l) :
    l ≠ [] ∧ kwList.contains (toLowerAscii l) = false ∧
      ((∀ ch ∈ cap, isLineTermCh ch = false) → '<' ∉ l ∧ '[' ∉ l) ∧
      ('[' ∉ cap → '[' ∉ l) := by
  have key : ∀ t0 : List Char, normalizeTail brRx t0 = some l →
      (∀ ch ∈ t0, ch ∈ jsTrim cap ∨ ch ∈ ("map".data)) →
      l ≠ [] ∧ kwList.contains (toLowerAscii l) = false ∧
        ((∀ ch ∈ cap, isLineTermCh ch = false) → '<' ∉ l ∧ '[' ∉ l) ∧
        ('[' ∉ cap → '[' ∉ l) := by
    intro t0 ht hsub
    simp only [normalizeTail] at ht
    obtain ⟨hne, hkw, hmem⟩ := normalizeFinish_shape _ _ ht
    refine ⟨hne, hkw, ?_, ?_⟩
    · intro hfree
      have hfree0 : ∀ ch ∈ t0, isLineTermCh ch = false := by
        intro ch hch
        rcases hsub ch hch with h1 | h2
        · exact hfree ch (mem_jsTrim cap ch h1)
        · exact (by decide : ∀ c ∈ ("map".data), isLineTermCh c = false) ch h2
      have hfree1 : ∀ ch ∈ replaceFirst genRx t0, isLineTermCh ch = false :=
        fun ch hch => hfree0 ch (mem_replaceFirst genRx t0 ch hch)
      constructor
      · intro hmem2
        exact replaceFirst_gen_no t0 '<' hfree0
          (mem_replaceFirst _ _ _ (hmem '<' hmem2))
      · intro hmem2
        exact replaceFirst_br_no (replaceFirst genRx t0) hfree1 (hmem '[' hmem2)
    · intro hnb hmem2
      have h0 : '[' ∉ t0 := by
        intro hch
        rcases hsub '[' hch with h1 | h2
        · exact hnb (mem_jsTrim cap '[' h1)
        · exact absurd h2 (by decide)
      exact h0 (mem_replaceFirst genRx t0 '[' (mem_replaceFirst brRx _ '[' (hmem '[' hmem2)))
  cases hp1 : ("[]".data).isPrefixOf (jsTrim cap) with
  | false =>
    cases hp2 : ("map[".data).isPrefixOf (jsTrim cap) with
    | false =>
      cases hp3 : ("*".data).isPrefixOf (jsTrim cap) with
      | false =>
        refine key (jsTrim cap) ?_ (fun ch hch => Or.inl hch)
        rw [show normalize cap = normalizeTail brRx (jsTrim cap) from by
          simp [Typekon.normalize, hp1, hp2, hp3]] at h
        exact h
      | true =>
        refine key ((jsTrim cap).drop 1) ?_
          (fun ch hch => Or.inl (List.drop_subset _ _ hch))
        rw [show normalize cap = normalizeTail brRx ((jsTrim cap).drop 1) from by
          simp [Typekon.normalize, hp1, hp2, hp3]] at h
        exact h
    | true =>
      refine key ("map".data) ?_ (fun ch hch => Or.inr hch)
      rw [show normalize cap = normalizeTail brRx ("map".data) from by
        simp [Typekon.normalize, hp1, hp2]] at h
      exact h
  | true =>
    cases hp2 : ("map[".data).isPrefixOf ((jsTrim cap).drop 2) with
    | false =>
      cases hp3 : ("*".data).isPrefixOf ((jsTrim cap).drop 2) with
      | false =>
        refine key ((jsTrim cap).drop 2) ?_
          (fun ch hch => Or.inl (List.drop_subset _ _ hch))
        rw [show normalize cap = normalizeTail brRx ((jsTrim cap).drop 2) from by
          simp [Typekon.normalize, hp1, hp2, hp3]] at h
        exact h
      | true =>
        refine key (((jsTrim cap).drop 2).drop 1) ?_
          (fun ch hch => Or.inl (List.drop_subset _ _ (List.drop_subset _ _ hch)))
        rw [show normalize cap = normalizeTail brRx (((jsTrim cap).drop 2).drop 1) from by
          simp [Typekon.normalize, hp1, hp2, hp3]] at h
        exact h
    | true =>
      refine key ("map".data) ?_ (fun ch hch => Or.inr hch)
      rw [show normalize cap = normalizeTail brRx ("map".data) from by
        simp [Typekon.normalize, hp1, hp2]] at h
      exact h

theorem normalize_agree (cap : List Char)
    (h1 : ("[]".data).isPrefixOf (jsTrim cap) = false)
    (h2 : ("map[".data).isPrefixOf (jsTrim cap) = false)
    (h3 : ("*".data).isPrefixOf (jsTrim cap) = false)
    (hd : (∀ ch ∈ cap, isLineTermCh ch = false) ∨ '[' ∉ cap) :
    normalizeEarly cap = normalize cap := by
  rw [show normalize cap = normalizeTail brRx (jsTrim cap) from by
    simp [Typekon.normalize, h1, h2, h3]]
  simp only [normalizeEarly, normalizeTail]
  have heq : replaceFirst brRx (replaceFirst genRx (jsTrim cap)) =
      replaceFirst brRxEarly (replaceFirst genRx (jsTrim cap)) := by
    rcases hd with hfree | hnb
    · exact replaceFirst_br_eq (replaceFirst genRx (jsTrim cap))
        (fun ch hch => hfree ch (mem_jsTrim cap ch (mem_replaceFirst genRx _ ch hch)))
    · have h0 : '[' ∉ replaceFirst genRx (jsTrim cap) :=
        fun hch => hnb (mem_jsTrim cap '[' (mem_replaceFirst genRx _ '[' hch))
      rw [show replaceFirst brRx (replaceFirst genRx (jsTrim cap)) =
          replaceFirst genRx (jsTrim cap) from
          replaceFirst_lit_id _ '[' _ false h0,
        show replaceFirst brRxEarly (replaceFirst genRx (jsTrim cap)) =
          replaceFirst genRx (jsTrim cap) from
          replaceFirst_lit_id _ '[' _ false h0]
  rw [heq]

/-- C2.  Every successful result of the effective `extractTypeFromHoverText` is
non-empty, is not on the keyword denylist under the lower-cased comparison, and
contains no `'['`; it contains no `'<'` whenever the candidate capture is free
of line terminators (the C/C++ patterns can capture line terminators, and then
the non-global `/<.*/` strip only deletes up to the line end); and the fixture
whose sole candidate capture is the keyword `static` yields `none`. -/
theorem extractType_shape (text languageId : String) (t : String)
    (h : extractTypeFromHoverText text languageId = some t) :
    t ≠ "" ∧ toLowerAscii t.data ∉ kwList ∧ '[' ∉ t.data ∧
      ((∀ ch ∈ (hoverCandidate text.data languageId).getD [], isLineTermCh ch = false) →
        '<' ∉ t.data) ∧
      extractTypeFromHoverText "static value" "java" = none := by
  unfold extractTypeFromHoverText at h
  cases hc : hoverCandidate text.data languageId with
  | none => rw [hc] at h; cases h
  | some cap =>
    rw [hc] at h
    rw [Option.some_bind] at h
    cases hn : Typekon.normalize cap with
    | none => rw [hn] at h; cases h
    | some l =>
      rw [hn] at h
      rw [Option.map_some'] at h
      have ht := Option.some.inj h
      obtain ⟨hne, hkw, hdi, hbr⟩ := normalize_shape cap l hn
      have hdata : t.data = l := by rw [← ht]; exact rfl
      refine ⟨?_, ?_, ?_, ?_, by set_option maxHeartbeats 2000000 in decide⟩
      · intro he
        exact hne (by rw [← hdata, he])
      · rw [hdata]
        exact not_mem_of_contains_false hkw
      · rw [hdata]
        rcases hoverCandidate_dichotomy text.data languageId cap hc with hfree | hnb
        · exact (hdi hfree).2
        · exact hbr hnb
      · intro hfree
        simp only [Option.getD_some] at hfree
        rw [hdata]
        exact (hdi hfree).1

/-- C2 counterexample: a C/C++ hover text whose captured return type spans a
line break retains a `'<'` in the extracted type name, because `/<.*/` stops
at the line terminator and the second `<` survives. -/
theorem extractType_angle_counterexample :
    extractTypeFromHoverText "a<x\nc<d e()" "cpp" = some "a\nc<d" ∧
      '<' ∈ ("a\nc<d" : String).data :=
  ⟨by decide, by decide⟩

/-- C2 witness: the shape theorem instantiated on a TypeScript property hover. -/
theorem extractType_shape_witness :
    ("Number" : String) ≠ "" ∧ toLowerAscii ("Number" : String).data ∉ kwList ∧
      '[' ∉ ("Number" : String).data ∧
      ((∀ ch ∈ (hoverCandidate ("(property) Calculator.value: Number" : String).data
          "typescript").getD [], isLineTermCh ch = false) →
        '<' ∉ ("Number" : String).data) ∧
      extractTypeFromHoverText "static value" "java" = none :=
  extractType_shape "(property) Calculator.value: Number" "typescript" "Number" (by decide)

/-- C10.  The two concatenated copies of `extractTypeFromHoverText` agree on
every input whose candidate capture starts with none of the Go markers `[]`,
`map[`, `*` after trimming: the second copy's extra strips then do nothing, and
the two array-bracket patterns `/\[.*/` and `/\[.*$/` delete the same span
because every capture either is line-terminator-free (where both reach the end
of the string) or contains no `'['` at all (where neither matches). -/
theorem extractType_copies_agree (text languageId : String)
    (h : ∀ cap, hoverCandidate text.data languageId = some cap →
      ("[]".data).isPrefixOf (jsTrim cap) = false ∧
      ("map[".data).isPrefixOf (jsTrim cap) = false ∧
      ("*".data).isPrefixOf (jsTrim cap) = false) :
    extractTypeFromHoverTextEarly text languageId =
      extractTypeFromHoverText text languageId := by
  unfold extractTypeFromHoverTextEarly extractTypeFromHoverText
  cases hc : hoverCandidate text.data languageId with
  | none => rw [Option.none_bind, Option.none_bind]
  | some cap =>
    obtain ⟨h1, h2, h3⟩ := h cap hc
    rw [Option.some_bind, Option.some_bind,
      normalize_agree cap h1 h2 h3 (hoverCandidate_dichotomy text.data languageId cap hc)]

/-- C10 counterexample: on the Go slice fixture the first copy returns `none`
(no `[]` strip, so the bracket pattern erases the whole capture and the empty
name collapses to `null`) while the effective second copy returns `"string"`. -/
theorem extractType_copies_differ :
    extractTypeFromHoverTextEarly "field history []string // size=24" "go" = none ∧
      extractTypeFromHoverText "field history []string // size=24" "go" = some "string" :=
  ⟨by decide, by decide⟩

/-- C10 witness: both copies on a TypeScript `let` hover. -/
theorem extractType_copies_agree_witness :
    extractTypeFromHoverTextEarly "let total: Number = 5" "typescript" =
      extractTypeFromHoverText "let total: Number = 5" "typescript" :=
  extractType_copies_agree "let total: Number = 5" "typescript" (fun cap hcap => by
    rw [show hoverCandidate ("let total: Number = 5" : String).data "typescript" =
      some ("Number".data) from by decide] at hcap
    rw [← Option.some.inj hcap]
    exact ⟨by decide, by decide, by decide⟩)

end Typekon















